import Mathlib

/-!
# khmer: de Bruijn graph traversal (`lib/traversal.cc`)

A shallow embedding of the traversal engine of khmer: the two k-mer extensions
`Traverser::get_left` / `Traverser::get_right`, the bounded neighbour enumeration
`traverse_left` / `traverse_right`, the degrees `degree_left` / `degree_right` / `degree`, the
single-step cursor `AssemblerTraverser::next_symbol` with `cursor_degree`, `set_cursor`,
`push_filter` / `pop_filter` and `join_contigs`, and the loop-avoiding variant
`NonLoopingAT::next_symbol`.

Conventions of the embedding.

* `HashIntoType` is an unsigned 64-bit integer.  Hashes are natural numbers and every
  operation that can leave the 64-bit range in C++ is reduced modulo `2 ^ 64` explicitly.
* Mutable objects are passed and returned explicitly: a member function that mutates `this`
  returns the new object next to its C++ return value.
* The loops over `alphabets::DNA_SIMPLE` are structural recursions over the list of symbols that
  are still to be tried, carrying the local variables of the C++ loop.
* Filters (`std::function`) are pure Boolean functions, and the output on `std::cout` of the
  `DEBUG` build is not part of the model.
* A `std::string` is the list of its characters; a call that throws or has no defined behaviour
  has no result (`none`).
-/

namespace khmer

/-! ## Data model -/

/-- Number of values of `HashIntoType` (an unsigned 64-bit integer). -/
def HASH_MOD : Nat := 2 ^ 64

/-- Number of values of `unsigned int`, the type of `Traverser::rc_left_shift`. -/
def UINT_MOD : Nat := 2 ^ 32

/-- A `Kmer`: forward hash, reverse-complement hash and the unique hash under which the k-mer is
stored and compared. -/
structure Kmer where
  kmer_f : Nat
  kmer_r : Nat
  kmer_u : Nat
deriving DecidableEq, Repr

/-- Modelled from the spec: `uniqify_rc` of kmer_hash.hh (defined outside traversal.cc), the
canonical choice between the two strand hashes, here the smaller one. -/
def uniqify_rc (kmer_f kmer_r : Nat) : Nat :=
  if kmer_f < kmer_r then kmer_f else kmer_r

/-- Modelled from the spec: `KmerFactory::build_kmer` of kmer_hash.hh (defined outside
traversal.cc), a pure constructor that stores both hashes as given and adds the unique hash. -/
def build_kmer (kmer_f kmer_r : Nat) : Kmer :=
  { kmer_f := kmer_f, kmer_r := kmer_r, kmer_u := uniqify_rc kmer_f kmer_r }

/-- The base-to-code tables `twobit_repr` and `twobit_comp`.  They are macros of kmer_hash.hh,
which traversal.cc only includes, so the traversal code is parametric in them. -/
structure TwoBit where
  twobit_repr : Char → Nat
  twobit_comp : Char → Nat

/-- The alphabet `alphabets::DNA_SIMPLE`, in iteration order. -/
def DNA_SIMPLE : List Char := ['A', 'C', 'G', 'T']

/-- The template argument `LEFT`. -/
abbrev LEFT : Bool := false

/-- The template argument `RIGHT`. -/
abbrev RIGHT : Bool := true

/-- The sentinel returned by `next_symbol` when no step is taken (the NUL character). -/
def STOP : Char := Char.ofNat 0

/-- The read-only count store: the only two calls the traversal makes on it. -/
structure Hashtable where
  ksize : Nat
  get_count : Kmer → Nat

/-- A `KmerFilter`: returns true to reject a candidate. -/
abbrev KmerFilter : Type := Kmer → Bool

/-- Modelled from the spec: `apply_kmer_filters` (defined outside traversal.cc): a chain
rejects a candidate if any filter in the chain rejects it. -/
def apply_kmer_filters (node : Kmer) (filters : List KmerFilter) : Bool :=
  filters.any (fun filter => filter node)

/-- The shared visited set `SeenSet`, a set of hashes; a `Kmer` is looked up and inserted under
its unique hash `kmer_u`. -/
abbrev SeenSet : Type := Finset Nat

/-- Modelled from the spec: `get_visited_filter` (defined outside traversal.cc): the filter
that rejects any candidate already present in the visited set. -/
def get_visited_filter (visited : SeenSet) : KmerFilter :=
  fun node => decide (node.kmer_u ∈ visited)

/-! ## Traverser -/

/-- The data members of `Traverser` (with `_ksize` inherited from `KmerFactory`). -/
structure Traverser where
  _ksize : Nat
  graph : Hashtable
  bitmask : Nat
  rc_left_shift : Nat

/-- The loop of the constructor: `n` rounds of `bitmask = (bitmask << 2) | 3` on a 64-bit
variable. -/
def bitmask_loop : Nat → Nat → Nat
  | 0, bitmask => bitmask
  | n + 1, bitmask => bitmask_loop n (((bitmask <<< 2) % HASH_MOD) ||| 3)

/-- The constructor `Traverser::Traverser(ht)`. -/
def Traverser.new (ht : Hashtable) : Traverser :=
  { _ksize := ht.ksize
    graph := ht
    bitmask := bitmask_loop ht.ksize 0
    rc_left_shift := (ht.ksize * 2 + UINT_MOD - 2) % UINT_MOD }

/-- The member `Traverser::get_left`. -/
def Traverser.get_left (enc : TwoBit) (t : Traverser) (node : Kmer) (ch : Char) : Kmer :=
  let kmer_f := (node.kmer_f >>> 2) ||| ((enc.twobit_repr ch <<< t.rc_left_shift) % HASH_MOD)
  let kmer_r := (((node.kmer_r <<< 2) % HASH_MOD) &&& t.bitmask) ||| enc.twobit_comp ch
  build_kmer kmer_f kmer_r

/-- The member `Traverser::get_right`. -/
def Traverser.get_right (enc : TwoBit) (t : Traverser) (node : Kmer) (ch : Char) : Kmer :=
  let kmer_f := (((node.kmer_f <<< 2) % HASH_MOD) &&& t.bitmask) ||| enc.twobit_repr ch
  let kmer_r := (node.kmer_r >>> 2) ||| ((enc.twobit_comp ch <<< t.rc_left_shift) % HASH_MOD)
  build_kmer kmer_f kmer_r

/-- The test `!filter || filter(node)` of the enumerations: an absent filter keeps everything. -/
def keeps (filter : Option (Kmer → Bool)) (node : Kmer) : Bool :=
  match filter with
  | none => true
  | some f => f node

/-- The loop of `Traverser::traverse_left` over the symbols still to be tried, with the locals
`found` and the queue; the result is the returned count and the queue at return. -/
def Traverser.traverse_left_loop (enc : TwoBit) (t : Traverser) (node : Kmer)
    (filter : Option (Kmer → Bool)) (max_neighbors : Nat) :
    List Char → Nat → List Kmer → Nat × List Kmer
  | [], found, node_q => (found, node_q)
  | base :: rest, found, node_q =>
    let prev_node := t.get_left enc node base
    if t.graph.get_count prev_node ≠ 0 ∧ keeps filter prev_node = true then
      if found + 1 > max_neighbors then
        (found + 1, node_q ++ [prev_node])
      else
        Traverser.traverse_left_loop enc t node filter max_neighbors rest (found + 1)
          (node_q ++ [prev_node])
    else
      Traverser.traverse_left_loop enc t node filter max_neighbors rest found node_q

/-- The member `Traverser::traverse_left`: returns the count and the queue after the call. -/
def Traverser.traverse_left (enc : TwoBit) (t : Traverser) (node : Kmer) (node_q : List Kmer)
    (filter : Option (Kmer → Bool)) (max_neighbors : Nat) : Nat × List Kmer :=
  t.traverse_left_loop enc node filter max_neighbors DNA_SIMPLE 0 node_q

/-- The loop of `Traverser::traverse_right`. -/
def Traverser.traverse_right_loop (enc : TwoBit) (t : Traverser) (node : Kmer)
    (filter : Option (Kmer → Bool)) (max_neighbors : Nat) :
    List Char → Nat → List Kmer → Nat × List Kmer
  | [], found, node_q => (found, node_q)
  | base :: rest, found, node_q =>
    let next_node := t.get_right enc node base
    if t.graph.get_count next_node ≠ 0 ∧ keeps filter next_node = true then
      if found + 1 > max_neighbors then
        (found + 1, node_q ++ [next_node])
      else
        Traverser.traverse_right_loop enc t node filter max_neighbors rest (found + 1)
          (node_q ++ [next_node])
    else
      Traverser.traverse_right_loop enc t node filter max_neighbors rest found node_q

/-- The member `Traverser::traverse_right`. -/
def Traverser.traverse_right (enc : TwoBit) (t : Traverser) (node : Kmer) (node_q : List Kmer)
    (filter : Option (Kmer → Bool)) (max_neighbors : Nat) : Nat × List Kmer :=
  t.traverse_right_loop enc node filter max_neighbors DNA_SIMPLE 0 node_q

/-- The loop of `Traverser::degree_left` over the symbols still to be tried, with the local
`degree`. -/
def Traverser.degree_left_loop (enc : TwoBit) (t : Traverser) (node : Kmer) :
    List Char → Nat → Nat
  | [], degree => degree
  | base :: rest, degree =>
    let prev_node := t.get_left enc node base
    if t.graph.get_count prev_node ≠ 0 then
      Traverser.degree_left_loop enc t node rest (degree + 1)
    else
      Traverser.degree_left_loop enc t node rest degree

/-- The member `Traverser::degree_left`. -/
def Traverser.degree_left (enc : TwoBit) (t : Traverser) (node : Kmer) : Nat :=
  t.degree_left_loop enc node DNA_SIMPLE 0

/-- The loop of `Traverser::degree_right`. -/
def Traverser.degree_right_loop (enc : TwoBit) (t : Traverser) (node : Kmer) :
    List Char → Nat → Nat
  | [], degree => degree
  | base :: rest, degree =>
    let next_node := t.get_right enc node base
    if t.graph.get_count next_node ≠ 0 then
      Traverser.degree_right_loop enc t node rest (degree + 1)
    else
      Traverser.degree_right_loop enc t node rest degree

/-- The member `Traverser::degree_right`. -/
def Traverser.degree_right (enc : TwoBit) (t : Traverser) (node : Kmer) : Nat :=
  t.degree_right_loop enc node DNA_SIMPLE 0

/-- The member `Traverser::degree`. -/
def Traverser.degree (enc : TwoBit) (t : Traverser) (node : Kmer) : Nat :=
  t.degree_right enc node + t.degree_left enc node

/-! ## AssemblerTraverser -/

/-- The class `AssemblerTraverser<direction>`: a `Traverser` with a cursor and a filter chain. -/
structure AssemblerTraverser extends Traverser where
  cursor : Kmer
  filters : List KmerFilter

/-- The constructor of `AssemblerTraverser`. -/
def AssemblerTraverser.new (ht : Hashtable) (start_kmer : Kmer) (filters : List KmerFilter) :
    AssemblerTraverser :=
  { toTraverser := Traverser.new ht, cursor := start_kmer, filters := filters }

/-- The two specialisations of `AssemblerTraverser<direction>::get_neighbor`. -/
def AssemblerTraverser.get_neighbor (direction : Bool) (enc : TwoBit) (a : AssemblerTraverser)
    (node : Kmer) (symbol : Char) : Kmer :=
  if direction = RIGHT then a.toTraverser.get_right enc node symbol
  else a.toTraverser.get_left enc node symbol

/-- The loop of `next_symbol` over the symbols still to be tried, with the locals `found`, `base`
and `cursor_next`.  The result is `none` when the loop leaves the function through
`return STOP` (a second candidate), and the locals after the last symbol otherwise. -/
def AssemblerTraverser.next_symbol_loop (direction : Bool) (enc : TwoBit)
    (a : AssemblerTraverser) : List Char → Nat → Char → Kmer → Option (Nat × Char × Kmer)
  | [], found, base, cursor_next => some (found, base, cursor_next)
  | symbol :: rest, found, base, cursor_next =>
    let neighbor := a.get_neighbor direction enc a.cursor symbol
    if a.graph.get_count neighbor ≠ 0 ∧ apply_kmer_filters neighbor a.filters = false then
      if found + 1 > 1 then
        none
      else
        AssemblerTraverser.next_symbol_loop direction enc a rest (found + 1) symbol neighbor
    else
      AssemblerTraverser.next_symbol_loop direction enc a rest found base cursor_next

/-- The member `AssemblerTraverser<direction>::next_symbol`: the returned character and the object
after the call.  The locals `base` and `cursor_next` start with arbitrary values, which are read
only after they have been assigned. -/
def AssemblerTraverser.next_symbol (direction : Bool) (enc : TwoBit) (a : AssemblerTraverser) :
    Char × AssemblerTraverser :=
  match a.next_symbol_loop direction enc DNA_SIMPLE 0 STOP (Kmer.mk 0 0 0) with
  | none => (STOP, a)
  | some (found, base, cursor_next) =>
    if found = 0 then (STOP, a) else (base, { a with cursor := cursor_next })

/-- The two specialisations of `AssemblerTraverser<direction>::cursor_degree`. -/
def AssemblerTraverser.cursor_degree (direction : Bool) (enc : TwoBit)
    (a : AssemblerTraverser) : Nat :=
  if direction = RIGHT then a.toTraverser.degree_right enc a.cursor
  else a.toTraverser.degree_left enc a.cursor

/-- The call `s.substr(pos)` of `std::string`, a string being the list of its characters: the
characters from position `pos` on, and no result (an exception is thrown) when `pos` is beyond
the end of the string. -/
def substr (s : List Char) (pos : Nat) : Option (List Char) :=
  if pos > s.length then none else some (s.drop pos)

/-- The two specialisations of `AssemblerTraverser<direction>::join_contigs`.  Both strings are
passed by reference; the result is the returned string followed by the contents of `contig_a`
and of `contig_b` after the call, and there is no result when `substr` throws. -/
def AssemblerTraverser.join_contigs (direction : Bool) (a : AssemblerTraverser)
    (contig_a contig_b : List Char) : Option (List Char × List Char × List Char) :=
  if direction = RIGHT then
    match substr contig_b a._ksize with
    | none => none
    | some tail => some (contig_a ++ tail, contig_a, contig_b)
  else
    match substr contig_a a._ksize with
    | none => none
    | some tail => some (contig_b ++ tail, contig_a, contig_b)

/-- The member `AssemblerTraverser<direction>::set_cursor`: the returned flag and the object
after the call. -/
def AssemblerTraverser.set_cursor (a : AssemblerTraverser) (node : Kmer) :
    Bool × AssemblerTraverser :=
  if apply_kmer_filters node a.filters = false then
    (true, { a with cursor := node })
  else
    (false, a)

/-- The member `AssemblerTraverser<direction>::push_filter`. -/
def AssemblerTraverser.push_filter (a : AssemblerTraverser) (filter : KmerFilter) :
    AssemblerTraverser :=
  { a with filters := a.filters ++ [filter] }

/-- The member `AssemblerTraverser<direction>::pop_filter`: the returned filter and the object
after the call.  On an empty chain `filters.back()` has no defined behaviour, and there is no
result. -/
def AssemblerTraverser.pop_filter (a : AssemblerTraverser) :
    Option (KmerFilter × AssemblerTraverser) :=
  match a.filters.getLast? with
  | none => none
  | some back => some (back, { a with filters := a.filters.dropLast })

/-! ## NonLoopingAT -/

/-- The class `NonLoopingAT<direction>`, as the constructor leaves an object and as
`next_symbol` keeps it: the chain is the caller-supplied filters followed by
`get_visited_filter(visited)`.  That filter reads the set behind the pointer `visited` at the
time it is called, so this view keeps the chain below it (the caller-supplied filters) and forms
the visited filter from the current contents of the shared set at each call.
`NonLoopingObject` below is the object with its chain as stored, on which the inherited
`push_filter` and `pop_filter` act; the two agree on the objects this view describes
(`stored_next_symbol`). -/
structure NonLoopingAT extends AssemblerTraverser

/-- The constructor of `NonLoopingAT`; the shared set stays with the caller. -/
def NonLoopingAT.new (ht : Hashtable) (start_kmer : Kmer) (filters : List KmerFilter) :
    NonLoopingAT :=
  { toAssemblerTraverser := AssemblerTraverser.new ht start_kmer filters }

/-- The object seen by the base-class code of a `NonLoopingAT`: the chain ends with the visited
filter over the current contents of the shared set. -/
def NonLoopingAT.chained (n : NonLoopingAT) (visited : SeenSet) : AssemblerTraverser :=
  { n.toAssemblerTraverser with filters := n.filters ++ [get_visited_filter visited] }

/-- The member `NonLoopingAT<direction>::next_symbol`: inserts the cursor in the shared set, then
runs the base-class step.  Returns the character, the object and the shared set after the
call. -/
def NonLoopingAT.next_symbol (direction : Bool) (enc : TwoBit) (n : NonLoopingAT)
    (visited : SeenSet) : Char × NonLoopingAT × SeenSet :=
  let visited1 := insert n.cursor.kmer_u visited
  let r := (n.chained visited1).next_symbol direction enc
  (r.1, { n with cursor := r.2.cursor }, visited1)

/-! ## NonLoopingAT with its chain as stored -/

/-- A filter as it is stored on the chain of a `NonLoopingAT`: a closure that may read the set
behind the pointer `visited`, so what it computes depends on the contents of that set at the
time of the call. -/
abbrev SetFilter : Type := SeenSet → KmerFilter

/-- A caller-supplied filter, which does not read the shared set, as a stored filter. -/
def SetFilter.fixed (f : KmerFilter) : SetFilter :=
  fun _ => f

/-- A `NonLoopingAT<direction>` object with its filter chain as stored: the chain is mutable
through the inherited `push_filter` and `pop_filter`, and the visited filter is one of its
elements, pushed once by the constructor. -/
structure NonLoopingObject extends Traverser where
  cursor : Kmer
  filters : List SetFilter

/-- The constructor of `NonLoopingAT`: the base-class constructor with the caller's filters, then
`push_filter(get_visited_filter(visited))`. -/
def NonLoopingObject.new (ht : Hashtable) (start_kmer : Kmer) (filters : List KmerFilter) :
    NonLoopingObject :=
  { toTraverser := Traverser.new ht
    cursor := start_kmer
    filters := filters.map SetFilter.fixed ++ [get_visited_filter] }

/-- The base-class part of an object as the base-class code sees it while the shared set has the
given contents: each stored filter computes what it computes on those contents. -/
def NonLoopingObject.base (o : NonLoopingObject) (visited : SeenSet) : AssemblerTraverser :=
  { toTraverser := o.toTraverser
    cursor := o.cursor
    filters := o.filters.map (fun f => f visited) }

/-- The inherited `get_neighbor`. -/
def NonLoopingObject.get_neighbor (direction : Bool) (enc : TwoBit) (o : NonLoopingObject)
    (node : Kmer) (symbol : Char) : Kmer :=
  if direction = RIGHT then o.toTraverser.get_right enc node symbol
  else o.toTraverser.get_left enc node symbol

/-- The member `NonLoopingAT<direction>::next_symbol` on the stored object: inserts the cursor
in the shared set, then runs the base-class step on the chain as it is. -/
def NonLoopingObject.next_symbol (direction : Bool) (enc : TwoBit) (o : NonLoopingObject)
    (visited : SeenSet) : Char × NonLoopingObject × SeenSet :=
  let visited1 := insert o.cursor.kmer_u visited
  let r := (o.base visited1).next_symbol direction enc
  (r.1, { o with cursor := r.2.cursor }, visited1)

/-- The inherited `push_filter`. -/
def NonLoopingObject.push_filter (o : NonLoopingObject) (filter : SetFilter) :
    NonLoopingObject :=
  { o with filters := o.filters ++ [filter] }

/-- The inherited `pop_filter`: it removes whatever filter is last on the chain, the visited
filter included; no result on an empty chain. -/
def NonLoopingObject.pop_filter (o : NonLoopingObject) :
    Option (SetFilter × NonLoopingObject) :=
  match o.filters.getLast? with
  | none => none
  | some back => some (back, { o with filters := o.filters.dropLast })

/-- The stored object of which a `NonLoopingAT` is the view. -/
def NonLoopingAT.stored (n : NonLoopingAT) : NonLoopingObject :=
  { toTraverser := n.toTraverser
    cursor := n.cursor
    filters := n.filters.map SetFilter.fixed ++ [get_visited_filter] }

/-! ## Sequences of calls -/

/-- A sequence of `m` consecutive calls of `NonLoopingAT::next_symbol` on one cursor: the list of
calls, each with the cursor position from which the step was attempted and the character
returned, and the object and the shared set after the last call. -/
def NonLoopingAT.run (direction : Bool) (enc : TwoBit) :
    Nat → NonLoopingAT → SeenSet → List (Kmer × Char) × NonLoopingAT × SeenSet
  | 0, n, visited => ([], n, visited)
  | m + 1, n, visited =>
    let r := n.next_symbol direction enc visited
    let rest := NonLoopingAT.run direction enc m r.2.1 r.2.2
    ((n.cursor, r.1) :: rest.1, rest.2)

/-- The number of successful steps among some calls: those that returned a base. -/
def successes (calls : List (Kmer × Char)) : Nat :=
  (calls.filter (fun e => e.2 != STOP)).length

/-- The first `m` calls of a cursor created at `start_kmer` over an empty visited set. -/
def walk (direction : Bool) (enc : TwoBit) (ht : Hashtable) (start_kmer : Kmer)
    (filters : List KmerFilter) (m : Nat) : List (Kmer × Char) × NonLoopingAT × SeenSet :=
  (NonLoopingAT.new ht start_kmer filters).run direction enc m ∅

/-- A sequence of `m` consecutive calls of `AssemblerTraverser::next_symbol` on one cursor, with
nothing else done to it in between: the characters returned and the object after the last
call. -/
def AssemblerTraverser.calls (direction : Bool) (enc : TwoBit) :
    Nat → AssemblerTraverser → List Char × AssemblerTraverser
  | 0, a => ([], a)
  | m + 1, a =>
    let r := a.next_symbol direction enc
    let rest := AssemblerTraverser.calls direction enc m r.2
    (r.1 :: rest.1, rest.2)

/-- A `NonLoopingAT<LEFT>` and a `NonLoopingAT<RIGHT>` whose `visited` pointers name the same
set, with the contents of that set. -/
structure CursorPair where
  left : NonLoopingAT
  right : NonLoopingAT
  visited : SeenSet

/-- The cursor of the member of the pair that walks in the given direction. -/
def CursorPair.cursor_of (w : CursorPair) (direction : Bool) : Kmer :=
  if direction = RIGHT then w.right.cursor else w.left.cursor

/-- One call of `next_symbol` on the member of the pair that walks in the given direction; the
other member is untouched and sees the updated set. -/
def CursorPair.next_symbol (enc : TwoBit) (w : CursorPair) (direction : Bool) :
    Char × CursorPair :=
  if direction = RIGHT then
    let r := w.right.next_symbol RIGHT enc w.visited
    (r.1, { w with right := r.2.1, visited := r.2.2 })
  else
    let r := w.left.next_symbol LEFT enc w.visited
    (r.1, { w with left := r.2.1, visited := r.2.2 })

/-- An interleaving of calls from a single thread: the list says which cursor steps next. -/
def CursorPair.run (enc : TwoBit) : CursorPair → List Bool → CursorPair
  | w, [] => w
  | w, direction :: rest => CursorPair.run enc (w.next_symbol enc direction).2 rest

/-! ## Enumeration with a count of the symbols tried -/

/-- The loop of `Traverser::traverse_left` once more, with a counter `tried` of the symbols tried
so far: it is incremented in every round of the loop, each of which computes one extension and
queries the count store once.  The result is the result of the loop and the counter at return. -/
def Traverser.traverse_left_counted (enc : TwoBit) (t : Traverser) (node : Kmer)
    (filter : Option (Kmer → Bool)) (max_neighbors : Nat) :
    List Char → Nat → List Kmer → Nat → (Nat × List Kmer) × Nat
  | [], found, node_q, tried => ((found, node_q), tried)
  | base :: rest, found, node_q, tried =>
    let prev_node := t.get_left enc node base
    if t.graph.get_count prev_node ≠ 0 ∧ keeps filter prev_node = true then
      if found + 1 > max_neighbors then
        ((found + 1, node_q ++ [prev_node]), tried + 1)
      else
        Traverser.traverse_left_counted enc t node filter max_neighbors rest (found + 1)
          (node_q ++ [prev_node]) (tried + 1)
    else
      Traverser.traverse_left_counted enc t node filter max_neighbors rest found node_q
        (tried + 1)

/-- The number of symbols for which a call of `traverse_left` computes an extension and queries
the count store. -/
def Traverser.traverse_left_trials (enc : TwoBit) (t : Traverser) (node : Kmer)
    (node_q : List Kmer) (filter : Option (Kmer → Bool)) (max_neighbors : Nat) : Nat :=
  (t.traverse_left_counted enc node filter max_neighbors DNA_SIMPLE 0 node_q 0).2

/-- The loop of `Traverser::traverse_right` with the counter of the symbols tried. -/
def Traverser.traverse_right_counted (enc : TwoBit) (t : Traverser) (node : Kmer)
    (filter : Option (Kmer → Bool)) (max_neighbors : Nat) :
    List Char → Nat → List Kmer → Nat → (Nat × List Kmer) × Nat
  | [], found, node_q, tried => ((found, node_q), tried)
  | base :: rest, found, node_q, tried =>
    let next_node := t.get_right enc node base
    if t.graph.get_count next_node ≠ 0 ∧ keeps filter next_node = true then
      if found + 1 > max_neighbors then
        ((found + 1, node_q ++ [next_node]), tried + 1)
      else
        Traverser.traverse_right_counted enc t node filter max_neighbors rest (found + 1)
          (node_q ++ [next_node]) (tried + 1)
    else
      Traverser.traverse_right_counted enc t node filter max_neighbors rest found node_q
        (tried + 1)

/-- The number of symbols for which a call of `traverse_right` computes an extension and
queries the count store. -/
def Traverser.traverse_right_trials (enc : TwoBit) (t : Traverser) (node : Kmer)
    (node_q : List Kmer) (filter : Option (Kmer → Bool)) (max_neighbors : Nat) : Nat :=
  (t.traverse_right_counted enc node filter max_neighbors DNA_SIMPLE 0 node_q 0).2

/-! ## Specification-side notions for the single step -/

/-- A symbol is a candidate at the cursor when its neighbour has nonzero count and no filter of
the chain rejects it. -/
def AssemblerTraverser.is_candidate (direction : Bool) (enc : TwoBit) (a : AssemblerTraverser)
    (symbol : Char) : Bool :=
  decide (a.graph.get_count (a.get_neighbor direction enc a.cursor symbol) ≠ 0) &&
    !apply_kmer_filters (a.get_neighbor direction enc a.cursor symbol) a.filters

/-- The candidate symbols at the cursor, in alphabet order. -/
def AssemblerTraverser.candidates (direction : Bool) (enc : TwoBit) (a : AssemblerTraverser) :
    List Char :=
  DNA_SIMPLE.filter (a.is_candidate direction enc)

/-! ## Specification-side notions for the hashes -/

/-- The complementary base: A pairs with T and C with G. -/
def complement (c : Char) : Char :=
  if c = 'A' then 'T' else if c = 'T' then 'A' else if c = 'C' then 'G'
  else if c = 'G' then 'C' else c

/-- What the claims assume of the code table: `twobit_repr` maps the four bases one-to-one into
the codes 0..3, and `twobit_comp(c)` is the `twobit_repr` code of the complementary base of
`c`. -/
def TwoBit.proper (enc : TwoBit) : Prop :=
  (∀ c ∈ DNA_SIMPLE, enc.twobit_repr c < 4) ∧
  (∀ c ∈ DNA_SIMPLE, ∀ d ∈ DNA_SIMPLE, enc.twobit_repr c = enc.twobit_repr d → c = d) ∧
  (∀ c ∈ DNA_SIMPLE, enc.twobit_comp c = enc.twobit_repr (complement c))

instance TwoBit.proper_decidable (enc : TwoBit) : Decidable enc.proper := by
  unfold TwoBit.proper
  infer_instance

/-- The base coded by a base-4 digit: the first base of the alphabet whose code is `d`. -/
def base_of (enc : TwoBit) (d : Nat) : Char :=
  (DNA_SIMPLE.find? (fun c => decide (enc.twobit_repr c = d))).getD 'A'

/-- The complement code of a digit: the complement code of the base the digit codes. -/
def comp_code (enc : TwoBit) (d : Nat) : Nat :=
  enc.twobit_comp (base_of enc d)

/-- The `k` low base-4 digits of a hash, most significant first. -/
def hash_codes : Nat → Nat → List Nat
  | 0, _ => []
  | k + 1, h => hash_codes k (h / 4) ++ [h % 4]

/-- The number with the given base-4 digits, most significant first. -/
def pack_codes (ds : List Nat) : Nat :=
  ds.foldl (fun acc d => acc * 4 + d) 0

/-- The reverse complement of a hash of `k` bases: its `k` base-4 digits reversed and each
replaced by its complement code. -/
def revcomp_hash (enc : TwoBit) (k h : Nat) : Nat :=
  pack_codes ((hash_codes k h).reverse.map (comp_code enc))

/-- A canonical-consistent node for k-mer length `k`: both hashes are below `4 ^ k` and `kmer_r`
is the reverse complement of `kmer_f`. -/
def consistent (enc : TwoBit) (k : Nat) (n : Kmer) : Prop :=
  n.kmer_f < 4 ^ k ∧ n.kmer_r < 4 ^ k ∧ n.kmer_r = revcomp_hash enc k n.kmer_f

instance consistent_decidable (enc : TwoBit) (k : Nat) (n : Kmer) :
    Decidable (consistent enc k n) := by
  unfold consistent
  infer_instance

/-- The base coded by the most significant of the `k` base-4 digits of `n.kmer_f`. -/
def first_base_of (enc : TwoBit) (k : Nat) (n : Kmer) : Char :=
  base_of enc (n.kmer_f / 4 ^ (k - 1) % 4)

/-- The base coded by the least significant base-4 digit of `n.kmer_f`. -/
def last_base_of (enc : TwoBit) (n : Kmer) : Char :=
  base_of enc (n.kmer_f % 4)

/-- The 2-bit packing of a string of bases, first base in the most significant digit. -/
def pack_kmer (enc : TwoBit) (w : List Char) : Nat :=
  pack_codes (w.map enc.twobit_repr)

/-- The strand swap of a node: the k-mer read on the other strand, with `kmer_f` and `kmer_r`
exchanged. -/
def strand_swap (n : Kmer) : Kmer :=
  build_kmer n.kmer_r n.kmer_f

/-! ## Specification-side notions for the enumerations -/

/-- An extension is kept by an enumeration when it has nonzero count and, where a filter is
supplied, the filter returns true on it. -/
def Traverser.is_kept (t : Traverser) (filter : Option (Kmer → Bool)) (n : Kmer) : Bool :=
  match filter with
  | none => decide (t.graph.get_count n ≠ 0)
  | some f => decide (t.graph.get_count n ≠ 0) && f n

/-- The kept left extensions of a node, in alphabet order. -/
def Traverser.kept_left (enc : TwoBit) (t : Traverser) (node : Kmer)
    (filter : Option (Kmer → Bool)) : List Kmer :=
  (DNA_SIMPLE.map (t.get_left enc node)).filter (t.is_kept filter)

/-- The kept right extensions of a node, in alphabet order. -/
def Traverser.kept_right (enc : TwoBit) (t : Traverser) (node : Kmer)
    (filter : Option (Kmer → Bool)) : List Kmer :=
  (DNA_SIMPLE.map (t.get_right enc node)).filter (t.is_kept filter)

/-! ## A concrete instance

The code table of upstream khmer and a small count store over 3-mers, on which the statements
below are evaluated. -/

/-- The code table of upstream khmer: A, T, C, G are coded 0, 1, 2, 3, and the complement code of
a base is the code of the complementary base. -/
def khmer_code : TwoBit :=
  { twobit_repr := fun ch =>
      if ch = 'A' then 0 else if ch = 'T' then 1 else if ch = 'C' then 2 else 3
    twobit_comp := fun ch =>
      if ch = 'A' then 1 else if ch = 'T' then 0 else if ch = 'C' then 3 else 2 }

/-- A count store over 3-mers that holds exactly the k-mers whose unique hash is listed. -/
def store3 (present : List Nat) : Hashtable :=
  { ksize := 3, get_count := fun node => if node.kmer_u ∈ present then 1 else 0 }

/-- The 3-mer ACG: forward hash 0*16 + 2*4 + 3, reverse complement CGT = 2*16 + 3*4 + 1. -/
def kmer_ACG : Kmer := build_kmer 11 45

/-- A count store over k-mers of length `k` that holds nothing. -/
def empty_store (k : Nat) : Hashtable :=
  { ksize := k, get_count := fun _ => 0 }

/-- The filter that rejects the k-mers with the given unique hash. -/
def reject_hash (h : Nat) : KmerFilter :=
  fun node => decide (node.kmer_u = h)

/-- An enumeration filter that keeps the k-mers whose unique hash is not listed. -/
def keep_unless (dropped : List Nat) : Kmer → Bool :=
  fun node => decide (node.kmer_u ∉ dropped)

theorem next_symbol_loop_cons (direction : Bool) (enc : TwoBit) (a : AssemblerTraverser)
    (symbol : Char) (rest : List Char) (found : Nat) (base : Char) (cursor_next : Kmer) :
    a.next_symbol_loop direction enc (symbol :: rest) found base cursor_next =
      if a.is_candidate direction enc symbol = true then
        (if found + 1 > 1 then none
         else a.next_symbol_loop direction enc rest (found + 1) symbol
           (a.get_neighbor direction enc a.cursor symbol))
      else a.next_symbol_loop direction enc rest found base cursor_next := by
  simp only [AssemblerTraverser.next_symbol_loop, AssemblerTraverser.is_candidate,
    Bool.and_eq_true, decide_eq_true_eq, Bool.not_eq_true']

/-- With no candidate among the symbols still to be tried, the loop runs to the end and leaves
its locals alone. -/
theorem next_symbol_loop_none (direction : Bool) (enc : TwoBit) (a : AssemblerTraverser)
    (l : List Char) (found : Nat) (base : Char) (cursor_next : Kmer)
    (h : l.filter (a.is_candidate direction enc) = []) :
    a.next_symbol_loop direction enc l found base cursor_next =
      some (found, base, cursor_next) := by
  induction l with
  | nil => simp [AssemblerTraverser.next_symbol_loop]
  | cons s rest ih =>
    rw [next_symbol_loop_cons]
    by_cases hs : a.is_candidate direction enc s = true
    · simp [List.filter_cons, hs] at h
    · simp only [List.filter_cons, hs] at h
      simp only [hs]
      exact ih h

/-- Once a candidate has been found, any further candidate makes the loop return STOP. -/
theorem next_symbol_loop_found (direction : Bool) (enc : TwoBit) (a : AssemblerTraverser)
    (l : List Char) (base : Char) (cursor_next : Kmer) :
    a.next_symbol_loop direction enc l 1 base cursor_next =
      if l.filter (a.is_candidate direction enc) = [] then some (1, base, cursor_next)
      else none := by
  induction l with
  | nil => simp [AssemblerTraverser.next_symbol_loop]
  | cons s rest ih =>
    rw [next_symbol_loop_cons]
    by_cases hs : a.is_candidate direction enc s = true
    · simp [List.filter_cons, hs]
    · simp only [List.filter_cons, hs]
      exact ih

/-- The loop from its initial state, in terms of the candidates among the symbols tried. -/
theorem next_symbol_loop_zero (direction : Bool) (enc : TwoBit) (a : AssemblerTraverser)
    (l : List Char) (base : Char) (cursor_next : Kmer) :
    a.next_symbol_loop direction enc l 0 base cursor_next =
      match l.filter (a.is_candidate direction enc) with
      | [] => some (0, base, cursor_next)
      | [b] => some (1, b, a.get_neighbor direction enc a.cursor b)
      | _ :: _ :: _ => none := by
  induction l with
  | nil => simp [AssemblerTraverser.next_symbol_loop]
  | cons s rest ih =>
    rw [next_symbol_loop_cons]
    by_cases hs : a.is_candidate direction enc s = true
    · simp only [hs, List.filter_cons, if_true]
      rw [if_neg (by omega), next_symbol_loop_found]
      cases hr : rest.filter (a.is_candidate direction enc) with
      | nil => simp
      | cons c cs => simp
    · simp only [List.filter_cons, hs]
      exact ih

/-- The step in terms of the candidate list: a single candidate is taken, anything else is
STOP with the object unchanged. -/
theorem next_symbol_eq (direction : Bool) (enc : TwoBit) (a : AssemblerTraverser) :
    a.next_symbol direction enc =
      match a.candidates direction enc with
      | [b] => (b, { a with cursor := a.get_neighbor direction enc a.cursor b })
      | _ => (STOP, a) := by
  unfold AssemblerTraverser.next_symbol AssemblerTraverser.candidates
  rw [next_symbol_loop_zero]
  cases hr : DNA_SIMPLE.filter (a.is_candidate direction enc) with
  | nil => simp
  | cons c cs =>
    cases cs with
    | nil => simp
    | cons d ds => simp

theorem mem_DNA_SIMPLE_ne_STOP (b : Char) (hb : b ∈ DNA_SIMPLE) : b ≠ STOP := by
  intro h
  subst h
  revert hb
  decide

theorem candidates_subset (direction : Bool) (enc : TwoBit) (a : AssemblerTraverser) (b : Char)
    (hb : b ∈ a.candidates direction enc) : b ∈ DNA_SIMPLE :=
  (List.mem_filter.mp hb).1

theorem not_candidate_of_ne (direction : Bool) (enc : TwoBit) (a : AssemblerTraverser)
    (b c : Char) (hc : c ∈ DNA_SIMPLE) (hne : c ≠ b)
    (huniq : ∀ c ∈ DNA_SIMPLE, a.is_candidate direction enc c = true → c = b) :
    a.is_candidate direction enc c = false := by
  cases h : a.is_candidate direction enc c with
  | false => rfl
  | true => exact absurd (huniq c hc h) hne

theorem candidates_eq_singleton (direction : Bool) (enc : TwoBit) (a : AssemblerTraverser)
    (b : Char) (hb : b ∈ DNA_SIMPLE) (hcand : a.is_candidate direction enc b = true)
    (huniq : ∀ c ∈ DNA_SIMPLE, a.is_candidate direction enc c = true → c = b) :
    a.candidates direction enc = [b] := by
  simp only [DNA_SIMPLE, List.mem_cons, List.mem_singleton, List.not_mem_nil, or_false] at hb
  unfold AssemblerTraverser.candidates DNA_SIMPLE
  rcases hb with rfl | rfl | rfl | rfl
  · simp [List.filter_cons, hcand,
      not_candidate_of_ne direction enc a 'A' 'C' (by decide) (by decide) huniq,
      not_candidate_of_ne direction enc a 'A' 'G' (by decide) (by decide) huniq,
      not_candidate_of_ne direction enc a 'A' 'T' (by decide) (by decide) huniq]
  · simp [List.filter_cons, hcand,
      not_candidate_of_ne direction enc a 'C' 'A' (by decide) (by decide) huniq,
      not_candidate_of_ne direction enc a 'C' 'G' (by decide) (by decide) huniq,
      not_candidate_of_ne direction enc a 'C' 'T' (by decide) (by decide) huniq]
  · simp [List.filter_cons, hcand,
      not_candidate_of_ne direction enc a 'G' 'A' (by decide) (by decide) huniq,
      not_candidate_of_ne direction enc a 'G' 'C' (by decide) (by decide) huniq,
      not_candidate_of_ne direction enc a 'G' 'T' (by decide) (by decide) huniq]
  · simp [List.filter_cons, hcand,
      not_candidate_of_ne direction enc a 'T' 'A' (by decide) (by decide) huniq,
      not_candidate_of_ne direction enc a 'T' 'C' (by decide) (by decide) huniq,
      not_candidate_of_ne direction enc a 'T' 'G' (by decide) (by decide) huniq]

/-- C1 (next_symbol, exactly-one case): for either direction, if exactly one symbol `b` of the
alphabet is a candidate at the cursor (its neighbour has nonzero count and the filter chain does
not reject it), then `next_symbol` returns `b` and the object afterwards differs from the old one
only in the cursor, which is `get_neighbor(old cursor, b)`; this holds wherever `b` stands in the
alphabet. -/
theorem next_symbol_exactly_one (direction : Bool) (enc : TwoBit) (a : AssemblerTraverser)
    (b : Char) (hb : b ∈ DNA_SIMPLE) (hcand : a.is_candidate direction enc b = true)
    (huniq : ∀ c ∈ DNA_SIMPLE, a.is_candidate direction enc c = true → c = b) :
    a.next_symbol direction enc =
      (b, { a with cursor := a.get_neighbor direction enc a.cursor b }) := by
  rw [next_symbol_eq, candidates_eq_singleton direction enc a b hb hcand huniq]

/-- C2 (next_symbol, STOP case): for either direction, `next_symbol` returns STOP if and only if
the number of candidate symbols is 0 or at least 2, and whenever it returns STOP the object
after the call (cursor and filter chain) is the object before the call. -/
theorem next_symbol_stop_iff (direction : Bool) (enc : TwoBit) (a : AssemblerTraverser) :
    ((a.next_symbol direction enc).1 = STOP ↔
        ((a.candidates direction enc).length = 0 ∨ 2 ≤ (a.candidates direction enc).length)) ∧
      ((a.next_symbol direction enc).1 = STOP → (a.next_symbol direction enc).2 = a) := by
  rw [next_symbol_eq]
  cases hr : a.candidates direction enc with
  | nil => simp
  | cons c cs =>
    cases cs with
    | nil =>
      have hc : c ∈ a.candidates direction enc := by rw [hr]; simp
      have hne := mem_DNA_SIMPLE_ne_STOP c (candidates_subset direction enc a c hc)
      simp [hne]
    | cons d ds => simp

/-- An instance of C1 in which the single candidate is C, the second symbol tried: the store
holds the right neighbour CGC of ACG only. -/
theorem next_symbol_exactly_one_witness :
    (AssemblerTraverser.new (store3 [46]) kmer_ACG []).next_symbol RIGHT khmer_code =
      ('C', { AssemblerTraverser.new (store3 [46]) kmer_ACG [] with
                cursor := Kmer.mk 46 59 46 }) :=
  next_symbol_exactly_one RIGHT khmer_code (AssemblerTraverser.new (store3 [46]) kmer_ACG [])
    'C' (by decide) (by decide) (by decide)

/-! ## The extensions as base-4 arithmetic -/

theorem or_shift_eq_add (a x s : Nat) (ha : a < 2 ^ s) : a ||| x * 2 ^ s = a + x * 2 ^ s := by
  have h := Nat.mul_add_lt_is_or ha x
  rw [Nat.lor_comm, Nat.mul_comm x, ← h, Nat.add_comm]

theorem four_pow_eq (k : Nat) : 4 ^ k = 2 ^ (2 * k) := by
  rw [Nat.pow_mul]

theorem and_four_pow_sub_one (x k : Nat) : x &&& (4 ^ k - 1) = x % 4 ^ k := by
  rw [four_pow_eq, Nat.and_pow_two_sub_one_eq_mod]

theorem four_pow_le_hash (k : Nat) (hk : k ≤ 32) : 4 ^ k ≤ HASH_MOD := by
  have h : (4 : Nat) ^ k ≤ 4 ^ 32 := Nat.pow_le_pow_right (by decide) hk
  have h2 : (4 : Nat) ^ 32 = HASH_MOD := by norm_num [HASH_MOD]
  omega

theorem four_pow_dvd_hash (k : Nat) (hk : k ≤ 32) : 4 ^ k ∣ HASH_MOD := by
  have h2 : HASH_MOD = (4 : Nat) ^ 32 := by norm_num [HASH_MOD]
  rw [h2]
  exact Nat.pow_dvd_pow 4 hk

theorem bitmask_loop_eq (n : Nat) : ∀ j : Nat, j + n ≤ 32 →
    bitmask_loop n (4 ^ j - 1) = 4 ^ (j + n) - 1 := by
  induction n with
  | zero => intro j _; simp [bitmask_loop]
  | succ n ih =>
    intro j hj
    have hpos : 0 < 4 ^ j := Nat.pow_pos (by decide)
    have hle := four_pow_le_hash (j + 1) (by omega)
    have hstep : ((4 ^ j - 1) <<< 2) % HASH_MOD ||| 3 = 4 ^ (j + 1) - 1 := by
      rw [Nat.shiftLeft_eq, Nat.mod_eq_of_lt (by rw [pow_succ] at hle; omega)]
      have h3 := Nat.mul_add_lt_is_or (show 3 < 2 ^ 2 by decide) (4 ^ j - 1)
      have : (4 ^ j - 1) * 2 ^ 2 = 2 ^ 2 * (4 ^ j - 1) := Nat.mul_comm _ _
      rw [this, ← h3, pow_succ]
      omega
    rw [bitmask_loop, hstep, ih (j + 1) (by omega)]
    congr 2
    omega

theorem bitmask_new (ht : Hashtable) (hk : ht.ksize ≤ 32) :
    (Traverser.new ht).bitmask = 4 ^ ht.ksize - 1 := by
  have h := bitmask_loop_eq ht.ksize 0 (by omega)
  simpa [Traverser.new] using h

theorem rc_left_shift_new (ht : Hashtable) (hk1 : 1 ≤ ht.ksize) (hk : ht.ksize ≤ 32) :
    (Traverser.new ht).rc_left_shift = 2 * (ht.ksize - 1) := by
  simp only [Traverser.new, UINT_MOD]
  norm_num
  omega

theorem shl2_mask (r k : Nat) (hk1 : 1 ≤ k) (hk : k ≤ 32) :
    ((r <<< 2) % HASH_MOD) &&& (4 ^ k - 1) = 4 * (r % 4 ^ (k - 1)) := by
  rw [and_four_pow_sub_one, Nat.mod_mod_of_dvd _ (four_pow_dvd_hash k hk), Nat.shiftLeft_eq]
  obtain ⟨m, rfl⟩ : ∃ m, k = m + 1 := ⟨k - 1, by omega⟩
  simp only [Nat.add_sub_cancel]
  rw [show (2 : Nat) ^ 2 = 4 by decide, pow_succ, Nat.mul_comm r 4, Nat.mul_comm (4 ^ m) 4,
    Nat.mul_mod_mul_left]

theorem shl2_mask_or (r k y : Nat) (hk1 : 1 ≤ k) (hk : k ≤ 32) (hy : y < 4) :
    (((r <<< 2) % HASH_MOD) &&& (4 ^ k - 1)) ||| y = 4 * (r % 4 ^ (k - 1)) + y := by
  rw [shl2_mask r k hk1 hk]
  have h := Nat.mul_add_lt_is_or (show y < 2 ^ 2 from hy) (r % 4 ^ (k - 1))
  simpa using h.symm

theorem shr2_or_top (f k x : Nat) (hk1 : 1 ≤ k) (hk : k ≤ 32) (hf : f < 4 ^ k) (hx : x < 4) :
    (f >>> 2) ||| ((x <<< (2 * (k - 1))) % HASH_MOD) = f / 4 + x * 4 ^ (k - 1) := by
  obtain ⟨m, rfl⟩ : ∃ m, k = m + 1 := ⟨k - 1, by omega⟩
  simp only [Nat.add_sub_cancel] at *
  have hle := four_pow_le_hash (m + 1) hk
  have h4 : (4 : Nat) ^ m = 2 ^ (2 * m) := four_pow_eq m
  have hpos : 0 < 4 ^ m := Nat.pow_pos (by decide)
  rw [Nat.shiftLeft_eq, Nat.shiftRight_eq_div_pow, ← h4, show (2 : Nat) ^ 2 = 4 by decide]
  have hlt : x * 4 ^ m < HASH_MOD := by
    rw [pow_succ] at hle
    nlinarith
  rw [Nat.mod_eq_of_lt hlt]
  have hf4 : f / 4 < 2 ^ (2 * m) := by
    rw [← h4, Nat.div_lt_iff_lt_mul (by decide)]
    rw [pow_succ] at hf
    exact hf
  have := or_shift_eq_add (f / 4) x (2 * m) hf4
  rw [← h4] at this
  exact this

theorem get_left_arith (enc : TwoBit) (ht : Hashtable) (node : Kmer) (c : Char)
    (hk1 : 1 ≤ ht.ksize) (hk : ht.ksize ≤ 32) (hf : node.kmer_f < 4 ^ ht.ksize)
    (hx : enc.twobit_repr c < 4) (hy : enc.twobit_comp c < 4) :
    ((Traverser.new ht).get_left enc node c).kmer_f =
        node.kmer_f / 4 + enc.twobit_repr c * 4 ^ (ht.ksize - 1) ∧
      ((Traverser.new ht).get_left enc node c).kmer_r =
        4 * (node.kmer_r % 4 ^ (ht.ksize - 1)) + enc.twobit_comp c := by
  simp only [Traverser.get_left, build_kmer, bitmask_new ht hk, rc_left_shift_new ht hk1 hk]
  exact ⟨shr2_or_top _ _ _ hk1 hk hf hx, shl2_mask_or _ _ _ hk1 hk hy⟩

theorem get_right_arith (enc : TwoBit) (ht : Hashtable) (node : Kmer) (c : Char)
    (hk1 : 1 ≤ ht.ksize) (hk : ht.ksize ≤ 32) (hr : node.kmer_r < 4 ^ ht.ksize)
    (hx : enc.twobit_repr c < 4) (hy : enc.twobit_comp c < 4) :
    ((Traverser.new ht).get_right enc node c).kmer_f =
        4 * (node.kmer_f % 4 ^ (ht.ksize - 1)) + enc.twobit_repr c ∧
      ((Traverser.new ht).get_right enc node c).kmer_r =
        node.kmer_r / 4 + enc.twobit_comp c * 4 ^ (ht.ksize - 1) := by
  simp only [Traverser.get_right, build_kmer, bitmask_new ht hk, rc_left_shift_new ht hk1 hk]
  exact ⟨shl2_mask_or _ _ _ hk1 hk hx, shr2_or_top _ _ _ hk1 hk hr hy⟩

theorem complement_mem (c : Char) (hc : c ∈ DNA_SIMPLE) : complement c ∈ DNA_SIMPLE := by
  simp only [DNA_SIMPLE, List.mem_cons, List.mem_singleton, List.not_mem_nil, or_false] at hc
  rcases hc with rfl | rfl | rfl | rfl <;> decide

theorem base_of_mem (enc : TwoBit) (d : Nat) : base_of enc d ∈ DNA_SIMPLE := by
  unfold base_of
  cases h : DNA_SIMPLE.find? (fun c => decide (enc.twobit_repr c = d)) with
  | none => decide
  | some c => exact List.mem_of_find?_eq_some h

theorem base_of_repr (enc : TwoBit) (hp : enc.proper) (c : Char) (hc : c ∈ DNA_SIMPLE) :
    base_of enc (enc.twobit_repr c) = c := by
  unfold base_of
  cases h : DNA_SIMPLE.find? (fun b => decide (enc.twobit_repr b = enc.twobit_repr c)) with
  | none =>
    rw [List.find?_eq_none] at h
    exact absurd (h c hc) (by simp)
  | some b =>
    have hb := List.mem_of_find?_eq_some h
    have hb2 := List.find?_some h
    simp only [decide_eq_true_eq] at hb2
    simpa using hp.2.1 b hb c hc hb2

theorem repr_base_of (enc : TwoBit) (hp : enc.proper) (d : Nat) (hd : d < 4) :
    enc.twobit_repr (base_of enc d) = d := by
  unfold base_of
  cases h : DNA_SIMPLE.find? (fun b => decide (enc.twobit_repr b = d)) with
  | none =>
    rw [List.find?_eq_none] at h
    have hA := h 'A' (by decide)
    have hC := h 'C' (by decide)
    have hG := h 'G' (by decide)
    have hT := h 'T' (by decide)
    simp only [decide_eq_true_eq] at hA hC hG hT
    have lA := hp.1 'A' (by decide)
    have lC := hp.1 'C' (by decide)
    have lG := hp.1 'G' (by decide)
    have lT := hp.1 'T' (by decide)
    have i1 : enc.twobit_repr 'A' ≠ enc.twobit_repr 'C' := fun e =>
      absurd (hp.2.1 'A' (by decide) 'C' (by decide) e) (by decide)
    have i2 : enc.twobit_repr 'A' ≠ enc.twobit_repr 'G' := fun e =>
      absurd (hp.2.1 'A' (by decide) 'G' (by decide) e) (by decide)
    have i3 : enc.twobit_repr 'A' ≠ enc.twobit_repr 'T' := fun e =>
      absurd (hp.2.1 'A' (by decide) 'T' (by decide) e) (by decide)
    have i4 : enc.twobit_repr 'C' ≠ enc.twobit_repr 'G' := fun e =>
      absurd (hp.2.1 'C' (by decide) 'G' (by decide) e) (by decide)
    have i5 : enc.twobit_repr 'C' ≠ enc.twobit_repr 'T' := fun e =>
      absurd (hp.2.1 'C' (by decide) 'T' (by decide) e) (by decide)
    have i6 : enc.twobit_repr 'G' ≠ enc.twobit_repr 'T' := fun e =>
      absurd (hp.2.1 'G' (by decide) 'T' (by decide) e) (by decide)
    omega
  | some b =>
    have hb2 := List.find?_some h
    simpa using hb2

theorem repr_lt (enc : TwoBit) (hp : enc.proper) (c : Char) (hc : c ∈ DNA_SIMPLE) :
    enc.twobit_repr c < 4 := hp.1 c hc

theorem comp_lt (enc : TwoBit) (hp : enc.proper) (c : Char) (hc : c ∈ DNA_SIMPLE) :
    enc.twobit_comp c < 4 := by
  rw [hp.2.2 c hc]
  exact hp.1 _ (complement_mem c hc)

theorem comp_code_lt (enc : TwoBit) (hp : enc.proper) (d : Nat) : comp_code enc d < 4 :=
  comp_lt enc hp _ (base_of_mem enc d)

theorem comp_code_repr (enc : TwoBit) (hp : enc.proper) (c : Char) (hc : c ∈ DNA_SIMPLE) :
    comp_code enc (enc.twobit_repr c) = enc.twobit_comp c := by
  unfold comp_code
  rw [base_of_repr enc hp c hc]

theorem foldl_pack_init (ds : List Nat) : ∀ init : Nat,
    ds.foldl (fun acc d => acc * 4 + d) init = init * 4 ^ ds.length + pack_codes ds := by
  induction ds with
  | nil => intro init; simp [pack_codes]
  | cons d ds ih =>
    intro init
    simp only [pack_codes, List.foldl_cons, List.length_cons]
    rw [ih (init * 4 + d), ih (0 * 4 + d), pow_succ]
    ring

theorem pack_codes_cons (d : Nat) (ds : List Nat) :
    pack_codes (d :: ds) = d * 4 ^ ds.length + pack_codes ds := by
  have h := foldl_pack_init ds (0 * 4 + d)
  simp only [pack_codes, List.foldl_cons] at h ⊢
  rw [h]
  simp

theorem pack_codes_snoc (ds : List Nat) (d : Nat) :
    pack_codes (ds ++ [d]) = pack_codes ds * 4 + d := by
  simp [pack_codes, List.foldl_append]

theorem hash_codes_length (k : Nat) : ∀ h : Nat, (hash_codes k h).length = k := by
  induction k with
  | zero => intro h; simp [hash_codes]
  | succ k ih => intro h; simp [hash_codes, ih]

theorem pack_hash_codes (k : Nat) : ∀ h : Nat, pack_codes (hash_codes k h) = h % 4 ^ k := by
  induction k with
  | zero => intro h; simp [hash_codes, pack_codes, Nat.mod_one]
  | succ k ih =>
    intro h
    rw [hash_codes, pack_codes_snoc, ih, pow_succ, Nat.mul_comm (4 ^ k) 4, Nat.mod_mul]
    omega

theorem revcomp_hash_zero (enc : TwoBit) (h : Nat) : revcomp_hash enc 0 h = 0 := by
  simp [revcomp_hash, hash_codes, pack_codes]

theorem revcomp_hash_succ (enc : TwoBit) (k h : Nat) :
    revcomp_hash enc (k + 1) h =
      comp_code enc (h % 4) * 4 ^ k + revcomp_hash enc k (h / 4) := by
  simp only [revcomp_hash, hash_codes, List.reverse_append, List.reverse_cons, List.reverse_nil,
    List.nil_append, List.singleton_append, List.map_cons, pack_codes_cons, List.length_map,
    List.length_reverse, hash_codes_length]

theorem revcomp_hash_lt (enc : TwoBit) (hp : enc.proper) (k : Nat) :
    ∀ h : Nat, revcomp_hash enc k h < 4 ^ k := by
  induction k with
  | zero => intro h; simp [revcomp_hash_zero]
  | succ k ih =>
    intro h
    rw [revcomp_hash_succ, pow_succ]
    have h1 := comp_code_lt enc hp (h % 4)
    have h2 := ih (h / 4)
    nlinarith

theorem revcomp_hash_top (enc : TwoBit) (m : Nat) : ∀ g x : Nat, g < 4 ^ m → x < 4 →
    revcomp_hash enc (m + 1) (g + x * 4 ^ m) = 4 * revcomp_hash enc m g + comp_code enc x := by
  induction m with
  | zero =>
    intro g x hg hx
    have : g = 0 := by simpa using hg
    subst this
    simp [revcomp_hash_succ, revcomp_hash_zero, Nat.mod_eq_of_lt hx]
  | succ m ih =>
    intro g x hg hx
    rw [revcomp_hash_succ]
    have e0 : x * 4 ^ (m + 1) = 4 * (x * 4 ^ m) := by rw [pow_succ]; ring
    have e1 : (g + x * 4 ^ (m + 1)) % 4 = g % 4 := by
      rw [e0]; omega
    have e2 : (g + x * 4 ^ (m + 1)) / 4 = g / 4 + x * 4 ^ m := by
      rw [e0]; omega
    have hg4 : g / 4 < 4 ^ m := by
      rw [pow_succ] at hg; omega
    rw [e1, e2, ih (g / 4) x hg4 hx, revcomp_hash_succ enc m g, pow_succ]
    ring

theorem split_top (f m : Nat) (hf : f < 4 ^ (m + 1)) :
    f = f % 4 ^ m + f / 4 ^ m * 4 ^ m ∧ f / 4 ^ m < 4 ∧ f % 4 ^ m < 4 ^ m := by
  have hpos : 0 < 4 ^ m := Nat.pow_pos (by decide)
  refine ⟨?_, ?_, Nat.mod_lt _ hpos⟩
  · have := Nat.mod_add_div f (4 ^ m)
    rw [Nat.mul_comm] at this
    exact this.symm
  · rw [Nat.div_lt_iff_lt_mul hpos, Nat.mul_comm, ← pow_succ]
    exact hf

/-- The reverse-complement hash split at its low end: what is left of it when the code of the
first base of the window is removed. -/
theorem revcomp_hash_low (enc : TwoBit) (hp : enc.proper) (m f : Nat) (hf : f < 4 ^ (m + 1)) :
    revcomp_hash enc (m + 1) f / 4 = revcomp_hash enc m (f % 4 ^ m) ∧
      revcomp_hash enc (m + 1) f % 4 = comp_code enc (f / 4 ^ m) := by
  obtain ⟨h1, h2, h3⟩ := split_top f m hf
  have h := revcomp_hash_top enc m (f % 4 ^ m) (f / 4 ^ m) h3 h2
  rw [← h1] at h
  have hc := comp_code_lt enc hp (f / 4 ^ m)
  rw [h]
  omega

theorem revcomp_hash_high (enc : TwoBit) (hp : enc.proper) (m f : Nat) :
    revcomp_hash enc (m + 1) f % 4 ^ m = revcomp_hash enc m (f / 4) ∧
      revcomp_hash enc (m + 1) f / 4 ^ m = comp_code enc (f % 4) := by
  have hlt := revcomp_hash_lt enc hp m (f / 4)
  have hpos : 0 < 4 ^ m := Nat.pow_pos (by decide)
  rw [revcomp_hash_succ]
  constructor
  · rw [Nat.mul_add_mod_of_lt hlt]
  · rw [Nat.add_comm, Nat.add_mul_div_right _ _ hpos, Nat.div_eq_of_lt hlt, Nat.zero_add]

theorem get_left_consistent (enc : TwoBit) (hp : enc.proper) (ht : Hashtable)
    (hk1 : 1 ≤ ht.ksize) (hk : ht.ksize ≤ 32) (node : Kmer)
    (hn : consistent enc ht.ksize node) (c : Char) (hc : c ∈ DNA_SIMPLE) :
    consistent enc ht.ksize ((Traverser.new ht).get_left enc node c) := by
  obtain ⟨hf, hr, hrc⟩ := hn
  have hx := repr_lt enc hp c hc
  have hy := comp_lt enc hp c hc
  obtain ⟨e1, e2⟩ := get_left_arith enc ht node c hk1 hk hf hx hy
  obtain ⟨m, hm⟩ : ∃ m, ht.ksize = m + 1 := ⟨ht.ksize - 1, by omega⟩
  rw [hm] at hf hr hrc e1 e2 ⊢
  simp only [Nat.add_sub_cancel] at e1 e2
  have hpos : 0 < 4 ^ m := Nat.pow_pos (by decide)
  have hf4 : node.kmer_f / 4 < 4 ^ m := by rw [pow_succ] at hf; omega
  have hrm : node.kmer_r % 4 ^ m < 4 ^ m := Nat.mod_lt _ hpos
  refine ⟨?_, ?_, ?_⟩
  · rw [e1, pow_succ]; nlinarith
  · rw [e2, pow_succ]; omega
  · rw [e1, e2, revcomp_hash_top enc m _ _ hf4 hx, comp_code_repr enc hp c hc, hrc,
      (revcomp_hash_high enc hp m node.kmer_f).1]

theorem get_right_consistent (enc : TwoBit) (hp : enc.proper) (ht : Hashtable)
    (hk1 : 1 ≤ ht.ksize) (hk : ht.ksize ≤ 32) (node : Kmer)
    (hn : consistent enc ht.ksize node) (c : Char) (hc : c ∈ DNA_SIMPLE) :
    consistent enc ht.ksize ((Traverser.new ht).get_right enc node c) := by
  obtain ⟨hf, hr, hrc⟩ := hn
  have hx := repr_lt enc hp c hc
  have hy := comp_lt enc hp c hc
  obtain ⟨e1, e2⟩ := get_right_arith enc ht node c hk1 hk hr hx hy
  obtain ⟨m, hm⟩ : ∃ m, ht.ksize = m + 1 := ⟨ht.ksize - 1, by omega⟩
  rw [hm] at hf hr hrc e1 e2 ⊢
  simp only [Nat.add_sub_cancel] at e1 e2
  have hpos : 0 < 4 ^ m := Nat.pow_pos (by decide)
  have hr4 : node.kmer_r / 4 < 4 ^ m := by rw [pow_succ] at hr; omega
  have hfm : node.kmer_f % 4 ^ m < 4 ^ m := Nat.mod_lt _ hpos
  refine ⟨?_, ?_, ?_⟩
  · rw [e1, pow_succ]; omega
  · rw [e2, pow_succ]; nlinarith
  · rw [e1, e2, revcomp_hash_succ]
    have a1 : (4 * (node.kmer_f % 4 ^ m) + enc.twobit_repr c) % 4 = enc.twobit_repr c := by
      omega
    have a2 : (4 * (node.kmer_f % 4 ^ m) + enc.twobit_repr c) / 4 = node.kmer_f % 4 ^ m := by
      omega
    rw [a1, a2, comp_code_repr enc hp c hc, hrc, (revcomp_hash_low enc hp m _ hf).1]
    ring

/-- C3 (canonical-pair invariant): for a traverser built over a store with 1 <= k <= 32 and a
proper code table, every node with both hashes below 4^k whose `kmer_r` is the reverse complement
of its `kmer_f`, and every base `c` of the alphabet, `get_left(node, c)` and `get_right(node, c)`
again have both hashes below 4^k and `kmer_r` the reverse complement of `kmer_f`. -/
theorem extensions_preserve_consistent (enc : TwoBit) (hp : enc.proper) (ht : Hashtable)
    (hk1 : 1 ≤ ht.ksize) (hk : ht.ksize ≤ 32) (node : Kmer)
    (hn : consistent enc ht.ksize node) (c : Char) (hc : c ∈ DNA_SIMPLE) :
    consistent enc ht.ksize ((Traverser.new ht).get_left enc node c) ∧
      consistent enc ht.ksize ((Traverser.new ht).get_right enc node c) :=
  ⟨get_left_consistent enc hp ht hk1 hk node hn c hc,
    get_right_consistent enc hp ht hk1 hk node hn c hc⟩

theorem add_mul_mod_of_lt (a b n : Nat) (ha : a < n) : (a + b * n) % n = a := by
  rw [Nat.add_mul_mod_self_right, Nat.mod_eq_of_lt ha]

theorem left_after_right (enc : TwoBit) (hp : enc.proper) (ht : Hashtable)
    (hk1 : 1 ≤ ht.ksize) (hk : ht.ksize ≤ 32) (n : Kmer) (hn : consistent enc ht.ksize n)
    (s : Char) (hs : s ∈ DNA_SIMPLE) :
    ((Traverser.new ht).get_left enc ((Traverser.new ht).get_right enc n s)
        (first_base_of enc ht.ksize n)).kmer_f = n.kmer_f ∧
      ((Traverser.new ht).get_left enc ((Traverser.new ht).get_right enc n s)
        (first_base_of enc ht.ksize n)).kmer_r = n.kmer_r := by
  have h1 := get_right_consistent enc hp ht hk1 hk n hn s hs
  obtain ⟨hf, hr, hrc⟩ := hn
  obtain ⟨m, hm⟩ : ∃ m, ht.ksize = m + 1 := ⟨ht.ksize - 1, by omega⟩
  obtain ⟨s1, s2, s3⟩ := split_top n.kmer_f m (hm ▸ hf)
  have hfb : first_base_of enc ht.ksize n = base_of enc (n.kmer_f / 4 ^ m) := by
    simp only [first_base_of, hm, Nat.add_sub_cancel, Nat.mod_eq_of_lt s2]
  rw [hfb]
  have hb : base_of enc (n.kmer_f / 4 ^ m) ∈ DNA_SIMPLE := base_of_mem enc _
  obtain ⟨e1, e2⟩ := get_right_arith enc ht n s hk1 hk hr (repr_lt enc hp s hs)
    (comp_lt enc hp s hs)
  obtain ⟨g1, g2⟩ := get_left_arith enc ht _ (base_of enc (n.kmer_f / 4 ^ m)) hk1 hk h1.1
    (repr_lt enc hp _ hb) (comp_lt enc hp _ hb)
  rw [hm] at hf hr hrc e1 e2 g1 g2
  simp only [Nat.add_sub_cancel] at e1 e2 g1 g2
  have hx := repr_lt enc hp s hs
  have hr4 : n.kmer_r / 4 < 4 ^ m := by rw [pow_succ] at hr; omega
  have hlow := revcomp_hash_low enc hp m n.kmer_f hf
  rw [← hrc] at hlow
  constructor
  · rw [g1, e1, repr_base_of enc hp _ s2]
    have : (4 * (n.kmer_f % 4 ^ m) + enc.twobit_repr s) / 4 = n.kmer_f % 4 ^ m := by omega
    rw [this]
    exact s1.symm
  · rw [g2, e2, add_mul_mod_of_lt _ _ _ hr4]
    have : enc.twobit_comp (base_of enc (n.kmer_f / 4 ^ m)) = n.kmer_r % 4 := by
      rw [hlow.2]; rfl
    rw [this]
    omega

theorem right_after_left (enc : TwoBit) (hp : enc.proper) (ht : Hashtable)
    (hk1 : 1 ≤ ht.ksize) (hk : ht.ksize ≤ 32) (n : Kmer) (hn : consistent enc ht.ksize n)
    (s : Char) (hs : s ∈ DNA_SIMPLE) :
    ((Traverser.new ht).get_right enc ((Traverser.new ht).get_left enc n s)
        (last_base_of enc n)).kmer_f = n.kmer_f ∧
      ((Traverser.new ht).get_right enc ((Traverser.new ht).get_left enc n s)
        (last_base_of enc n)).kmer_r = n.kmer_r := by
  have h1 := get_left_consistent enc hp ht hk1 hk n hn s hs
  obtain ⟨hf, hr, hrc⟩ := hn
  have hb : last_base_of enc n ∈ DNA_SIMPLE := base_of_mem enc _
  obtain ⟨e1, e2⟩ := get_left_arith enc ht n s hk1 hk hf (repr_lt enc hp s hs)
    (comp_lt enc hp s hs)
  obtain ⟨g1, g2⟩ := get_right_arith enc ht _ (last_base_of enc n) hk1 hk h1.2.1
    (repr_lt enc hp _ hb) (comp_lt enc hp _ hb)
  obtain ⟨m, hm⟩ : ∃ m, ht.ksize = m + 1 := ⟨ht.ksize - 1, by omega⟩
  rw [hm] at hf hr hrc e1 e2 g1 g2
  simp only [Nat.add_sub_cancel] at e1 e2 g1 g2
  obtain ⟨s1, s2, s3⟩ := split_top n.kmer_r m hr
  have hy := comp_lt enc hp s hs
  have hf4 : n.kmer_f / 4 < 4 ^ m := by rw [pow_succ] at hf; omega
  have hl4 : n.kmer_f % 4 < 4 := Nat.mod_lt _ (by decide)
  have hhigh := revcomp_hash_high enc hp m n.kmer_f
  rw [← hrc] at hhigh
  constructor
  · rw [g1, e1, add_mul_mod_of_lt _ _ _ hf4, last_base_of, repr_base_of enc hp _ hl4]
    omega
  · rw [g2, e2]
    have : enc.twobit_comp (last_base_of enc n) = n.kmer_r / 4 ^ m := by
      rw [hhigh.2]; rfl
    rw [this]
    have : (4 * (n.kmer_r % 4 ^ m) + enc.twobit_comp s) / 4 = n.kmer_r % 4 ^ m := by omega
    rw [this]
    exact s1.symm

theorem get_left_kmer_f (enc : TwoBit) (ht : Hashtable) (node : Kmer) (c : Char)
    (hk1 : 1 ≤ ht.ksize) (hk : ht.ksize ≤ 32) (hf : node.kmer_f < 4 ^ ht.ksize)
    (hx : enc.twobit_repr c < 4) :
    ((Traverser.new ht).get_left enc node c).kmer_f =
        node.kmer_f / 4 + enc.twobit_repr c * 4 ^ (ht.ksize - 1) := by
  simp only [Traverser.get_left, build_kmer, rc_left_shift_new ht hk1 hk]
  exact shr2_or_top _ _ _ hk1 hk hf hx

theorem get_right_kmer_f (enc : TwoBit) (ht : Hashtable) (node : Kmer) (c : Char)
    (hk1 : 1 ≤ ht.ksize) (hk : ht.ksize ≤ 32) (hx : enc.twobit_repr c < 4) :
    ((Traverser.new ht).get_right enc node c).kmer_f =
        4 * (node.kmer_f % 4 ^ (ht.ksize - 1)) + enc.twobit_repr c := by
  simp only [Traverser.get_right, build_kmer, bitmask_new ht hk]
  exact shl2_mask_or _ _ _ hk1 hk hx

theorem pack_codes_lt (ds : List Nat) (h : ∀ d ∈ ds, d < 4) : pack_codes ds < 4 ^ ds.length := by
  induction ds with
  | nil => simp [pack_codes]
  | cons d ds ih =>
    rw [pack_codes_cons, List.length_cons, pow_succ]
    have h1 := h d (by simp)
    have h2 := ih (fun e he => h e (by simp [he]))
    nlinarith

theorem pack_kmer_lt (enc : TwoBit) (hcode : ∀ c ∈ DNA_SIMPLE, enc.twobit_repr c < 4)
    (w : List Char) (hw : ∀ b ∈ w, b ∈ DNA_SIMPLE) : pack_kmer enc w < 4 ^ w.length := by
  have := pack_codes_lt (w.map enc.twobit_repr) (by
    intro d hd
    obtain ⟨b, hb, rfl⟩ := List.mem_map.mp hd
    exact hcode b (hw b hb))
  simpa [pack_kmer] using this

/-- C5 (window shift): for 1 <= k <= 32, a string `w` of k bases and a base `c`, if `node.kmer_f`
is the 2-bit packing of `w` then the forward hash of `get_left(node, c)` is the packing of `c`
followed by the first k-1 bases of `w`, and the forward hash of `get_right(node, c)` is the
packing of the last k-1 bases of `w` followed by `c`. -/
theorem window_shift (enc : TwoBit) (hcode : ∀ c ∈ DNA_SIMPLE, enc.twobit_repr c < 4)
    (ht : Hashtable) (hk1 : 1 ≤ ht.ksize) (hk : ht.ksize ≤ 32) (w : List Char)
    (hlen : w.length = ht.ksize) (hw : ∀ b ∈ w, b ∈ DNA_SIMPLE) (c : Char)
    (hc : c ∈ DNA_SIMPLE) (node : Kmer) (hnode : node.kmer_f = pack_kmer enc w) :
    ((Traverser.new ht).get_left enc node c).kmer_f =
        pack_kmer enc (c :: w.take (ht.ksize - 1)) ∧
      ((Traverser.new ht).get_right enc node c).kmer_f =
        pack_kmer enc (w.drop 1 ++ [c]) := by
  have hx := hcode c hc
  have hlt := pack_kmer_lt enc hcode w hw
  rw [hlen, ← hnode] at hlt
  rw [get_left_kmer_f enc ht node c hk1 hk hlt hx, get_right_kmer_f enc ht node c hk1 hk hx]
  obtain ⟨m, hm⟩ : ∃ m, ht.ksize = m + 1 := ⟨ht.ksize - 1, by omega⟩
  rw [hm] at hlen ⊢
  simp only [Nat.add_sub_cancel]
  constructor
  · rcases List.eq_nil_or_concat w with h0 | ⟨L, b, rfl⟩
    · subst h0; simp at hlen
    · rw [List.concat_eq_append] at hw hnode hlen ⊢
      have hL : L.length = m := by simpa using hlen
      have hb := hcode b (hw b (by simp))
      rw [List.take_left' hL, hnode]
      simp only [pack_kmer, List.map_append, List.map_cons, List.map_nil, pack_codes_snoc,
        pack_codes_cons, List.length_map, hL]
      omega
  · cases w with
    | nil => simp at hlen
    | cons a L =>
      have hL : L.length = m := by simpa using hlen
      have hLlt := pack_kmer_lt enc hcode L (fun b hb => hw b (by simp [hb]))
      rw [hL] at hLlt
      rw [hnode]
      simp only [pack_kmer] at hLlt
      simp only [pack_kmer, List.map_append, List.map_cons, List.map_nil, pack_codes_snoc,
        pack_codes_cons, List.length_map, hL, List.drop_succ_cons, List.drop_zero]
      rw [Nat.add_comm (enc.twobit_repr a * 4 ^ m), add_mul_mod_of_lt _ _ _ hLlt]
      ring

/-- An instance of C3: the 3-mer ACG extended by C on either side. -/
theorem extensions_preserve_consistent_witness :
    consistent khmer_code 3 ((Traverser.new (store3 [])).get_left khmer_code kmer_ACG 'C') ∧
      consistent khmer_code 3 ((Traverser.new (store3 [])).get_right khmer_code kmer_ACG 'C') :=
  extensions_preserve_consistent khmer_code (by decide) (store3 []) (by decide) (by decide)
    kmer_ACG (by decide) 'C' (by decide)

/-- C4 (extension round trip): for 1 <= k <= 32, a proper code table, a canonical-consistent
node `n` and a base `s`, `get_left(get_right(n, s), first_base_of(n))` has the `kmer_f` and the
`kmer_r` of `n`, and so has `get_right(get_left(n, s), last_base_of(n))`. -/
theorem extension_round_trip (enc : TwoBit) (hp : enc.proper) (ht : Hashtable)
    (hk1 : 1 ≤ ht.ksize) (hk : ht.ksize ≤ 32) (n : Kmer) (hn : consistent enc ht.ksize n)
    (s : Char) (hs : s ∈ DNA_SIMPLE) :
    (((Traverser.new ht).get_left enc ((Traverser.new ht).get_right enc n s)
          (first_base_of enc ht.ksize n)).kmer_f = n.kmer_f ∧
        ((Traverser.new ht).get_left enc ((Traverser.new ht).get_right enc n s)
          (first_base_of enc ht.ksize n)).kmer_r = n.kmer_r) ∧
      (((Traverser.new ht).get_right enc ((Traverser.new ht).get_left enc n s)
          (last_base_of enc n)).kmer_f = n.kmer_f ∧
        ((Traverser.new ht).get_right enc ((Traverser.new ht).get_left enc n s)
          (last_base_of enc n)).kmer_r = n.kmer_r) :=
  ⟨left_after_right enc hp ht hk1 hk n hn s hs, right_after_left enc hp ht hk1 hk n hn s hs⟩

/-- An instance of C4: ACG extended by G and taken back, on either side. -/
theorem extension_round_trip_witness :
    (((Traverser.new (store3 [])).get_left khmer_code
          ((Traverser.new (store3 [])).get_right khmer_code kmer_ACG 'G')
          (first_base_of khmer_code 3 kmer_ACG)).kmer_f = 11 ∧
        ((Traverser.new (store3 [])).get_left khmer_code
          ((Traverser.new (store3 [])).get_right khmer_code kmer_ACG 'G')
          (first_base_of khmer_code 3 kmer_ACG)).kmer_r = 45) ∧
      (((Traverser.new (store3 [])).get_right khmer_code
          ((Traverser.new (store3 [])).get_left khmer_code kmer_ACG 'G')
          (last_base_of khmer_code kmer_ACG)).kmer_f = 11 ∧
        ((Traverser.new (store3 [])).get_right khmer_code
          ((Traverser.new (store3 [])).get_left khmer_code kmer_ACG 'G')
          (last_base_of khmer_code kmer_ACG)).kmer_r = 45) :=
  extension_round_trip khmer_code (by decide) (store3 []) (by decide) (by decide) kmer_ACG
    (by decide) 'G' (by decide)

/-- An instance of C5: the window ACG becomes TAC on the left and CGT on the right. -/
theorem window_shift_witness :
    ((Traverser.new (store3 [])).get_left khmer_code kmer_ACG 'T').kmer_f =
        pack_kmer khmer_code ['T', 'A', 'C'] ∧
      ((Traverser.new (store3 [])).get_right khmer_code kmer_ACG 'T').kmer_f =
        pack_kmer khmer_code ['C', 'G', 'T'] :=
  window_shift khmer_code (by decide) (store3 []) (by decide) (by decide) ['A', 'C', 'G']
    (by decide) (by decide) 'T' (by decide) kmer_ACG (by decide)

/-! ## Bounded neighbour enumeration -/

/-- The test of the two enumeration loops holds exactly of the kept extensions. -/
theorem is_kept_iff (t : Traverser) (filter : Option (Kmer → Bool)) (n : Kmer) :
    t.is_kept filter n = true ↔ (t.graph.get_count n ≠ 0 ∧ keeps filter n = true) := by
  cases filter with
  | none => simp [Traverser.is_kept, keeps]
  | some f => simp [Traverser.is_kept, keeps]

theorem traverse_left_loop_cons (enc : TwoBit) (t : Traverser) (node : Kmer)
    (filter : Option (Kmer → Bool)) (max_neighbors : Nat) (base : Char) (rest : List Char)
    (found : Nat) (node_q : List Kmer) :
    t.traverse_left_loop enc node filter max_neighbors (base :: rest) found node_q =
      if t.is_kept filter (t.get_left enc node base) = true then
        (if found + 1 > max_neighbors then (found + 1, node_q ++ [t.get_left enc node base])
         else t.traverse_left_loop enc node filter max_neighbors rest (found + 1)
           (node_q ++ [t.get_left enc node base]))
      else t.traverse_left_loop enc node filter max_neighbors rest found node_q := by
  simp only [Traverser.traverse_left_loop, is_kept_iff]

theorem traverse_right_loop_cons (enc : TwoBit) (t : Traverser) (node : Kmer)
    (filter : Option (Kmer → Bool)) (max_neighbors : Nat) (base : Char) (rest : List Char)
    (found : Nat) (node_q : List Kmer) :
    t.traverse_right_loop enc node filter max_neighbors (base :: rest) found node_q =
      if t.is_kept filter (t.get_right enc node base) = true then
        (if found + 1 > max_neighbors then (found + 1, node_q ++ [t.get_right enc node base])
         else t.traverse_right_loop enc node filter max_neighbors rest (found + 1)
           (node_q ++ [t.get_right enc node base]))
      else t.traverse_right_loop enc node filter max_neighbors rest found node_q := by
  simp only [Traverser.traverse_right_loop, is_kept_iff]

theorem traverse_left_loop_eq (enc : TwoBit) (t : Traverser) (node : Kmer)
    (filter : Option (Kmer → Bool)) (max_neighbors : Nat) (l : List Char) :
    ∀ (found : Nat) (node_q : List Kmer), found ≤ max_neighbors →
      t.traverse_left_loop enc node filter max_neighbors l found node_q =
        (found + min ((l.map (t.get_left enc node)).filter (t.is_kept filter)).length
            (max_neighbors + 1 - found),
          node_q ++ ((l.map (t.get_left enc node)).filter (t.is_kept filter)).take
            (max_neighbors + 1 - found)) := by
  induction l with
  | nil => intro found node_q _; simp [Traverser.traverse_left_loop]
  | cons base rest ih =>
    intro found node_q hfound
    rw [traverse_left_loop_cons]
    cases hk : t.is_kept filter (t.get_left enc node base) with
    | false =>
      simp only [List.map_cons, List.filter_cons, hk, Bool.false_eq_true, if_false]
      exact ih found node_q hfound
    | true =>
      simp only [List.map_cons, List.filter_cons, hk, if_true, List.length_cons]
      by_cases hmax : found + 1 > max_neighbors
      · have e : max_neighbors + 1 - found = 1 := by omega
        rw [if_pos hmax, e, List.take_succ_cons, List.take_zero]
        congr 1
        omega
      · have e : max_neighbors + 1 - found = (max_neighbors + 1 - (found + 1)) + 1 := by omega
        rw [if_neg hmax, ih (found + 1) _ (by omega), e, List.take_succ_cons]
        simp only [List.append_assoc, List.singleton_append]
        congr 1
        omega

theorem traverse_right_loop_eq (enc : TwoBit) (t : Traverser) (node : Kmer)
    (filter : Option (Kmer → Bool)) (max_neighbors : Nat) (l : List Char) :
    ∀ (found : Nat) (node_q : List Kmer), found ≤ max_neighbors →
      t.traverse_right_loop enc node filter max_neighbors l found node_q =
        (found + min ((l.map (t.get_right enc node)).filter (t.is_kept filter)).length
            (max_neighbors + 1 - found),
          node_q ++ ((l.map (t.get_right enc node)).filter (t.is_kept filter)).take
            (max_neighbors + 1 - found)) := by
  induction l with
  | nil => intro found node_q _; simp [Traverser.traverse_right_loop]
  | cons base rest ih =>
    intro found node_q hfound
    rw [traverse_right_loop_cons]
    cases hk : t.is_kept filter (t.get_right enc node base) with
    | false =>
      simp only [List.map_cons, List.filter_cons, hk, Bool.false_eq_true, if_false]
      exact ih found node_q hfound
    | true =>
      simp only [List.map_cons, List.filter_cons, hk, if_true, List.length_cons]
      by_cases hmax : found + 1 > max_neighbors
      · have e : max_neighbors + 1 - found = 1 := by omega
        rw [if_pos hmax, e, List.take_succ_cons, List.take_zero]
        congr 1
        omega
      · have e : max_neighbors + 1 - found = (max_neighbors + 1 - (found + 1)) + 1 := by omega
        rw [if_neg hmax, ih (found + 1) _ (by omega), e, List.take_succ_cons]
        simp only [List.append_assoc, List.singleton_append]
        congr 1
        omega

theorem take_min_length_left {α : Type} (L : List α) (n : Nat) :
    L.take (min L.length n) = L.take n := by
  rcases Nat.le_total L.length n with h | h
  · rw [Nat.min_eq_left h, List.take_of_length_le h, List.take_of_length_le (Nat.le_refl _)]
  · rw [Nat.min_eq_right h]

/-- C10 (bounded neighbour enumeration): with L the kept left extensions of the node in alphabet
order (those with nonzero count on which the filter, where one is supplied, returns true),
`traverse_left` returns min(|L|, max_neighbors + 1) and the queue after the call is the queue
before it followed by the first that-many elements of L; the same holds for `traverse_right`
with the kept right extensions. -/
theorem traverse_bounded (enc : TwoBit) (t : Traverser) (node : Kmer) (node_q : List Kmer)
    (filter : Option (Kmer → Bool)) (max_neighbors : Nat) :
    t.traverse_left enc node node_q filter max_neighbors =
        (min (t.kept_left enc node filter).length (max_neighbors + 1),
          node_q ++ (t.kept_left enc node filter).take
            (min (t.kept_left enc node filter).length (max_neighbors + 1))) ∧
      t.traverse_right enc node node_q filter max_neighbors =
        (min (t.kept_right enc node filter).length (max_neighbors + 1),
          node_q ++ (t.kept_right enc node filter).take
            (min (t.kept_right enc node filter).length (max_neighbors + 1))) := by
  constructor
  · rw [Traverser.traverse_left, traverse_left_loop_eq enc t node filter max_neighbors
      DNA_SIMPLE 0 node_q (Nat.zero_le _), take_min_length_left]
    simp only [Traverser.kept_left, Nat.zero_add, Nat.sub_zero]
  · rw [Traverser.traverse_right, traverse_right_loop_eq enc t node filter max_neighbors
      DNA_SIMPLE 0 node_q (Nat.zero_le _), take_min_length_left]
    simp only [Traverser.kept_right, Nat.zero_add, Nat.sub_zero]

/-- An instance of C10 with a filter and an early return: the store holds all eight neighbours
of ACG, the filter drops CAC and CGC, and `max_neighbors = 1`.  Of the kept left extensions
AAC, GAC, TAC the first two are appended to the queue, which held ACG, and 2 is returned; of
the kept right extensions CGA, CGG, CGT likewise the first two. -/
theorem traverse_bounded_witness :
    (Traverser.new (store3 [2, 34, 50, 18, 27, 46, 43, 11])).traverse_left khmer_code kmer_ACG
          [kmer_ACG] (some (keep_unless [34, 46])) 1 =
        (2, [kmer_ACG, Kmer.mk 2 53 2, Kmer.mk 50 54 50]) ∧
      (Traverser.new (store3 [2, 34, 50, 18, 27, 46, 43, 11])).traverse_right khmer_code
          kmer_ACG [kmer_ACG] (some (keep_unless [34, 46])) 1 =
        (2, [kmer_ACG, Kmer.mk 44 27 27, Kmer.mk 47 43 43]) :=
  ⟨(traverse_bounded khmer_code (Traverser.new (store3 [2, 34, 50, 18, 27, 46, 43, 11]))
      kmer_ACG [kmer_ACG] (some (keep_unless [34, 46])) 1).1.trans (by decide),
    (traverse_bounded khmer_code (Traverser.new (store3 [2, 34, 50, 18, 27, 46, 43, 11]))
      kmer_ACG [kmer_ACG] (some (keep_unless [34, 46])) 1).2.trans (by decide)⟩

/-! ## NonLoopingAT: the visited set -/

theorem apply_kmer_filters_append (node : Kmer) (fs gs : List KmerFilter) :
    apply_kmer_filters node (fs ++ gs) =
      (apply_kmer_filters node fs || apply_kmer_filters node gs) := by
  simp [apply_kmer_filters, List.any_append]

theorem chained_candidate (direction : Bool) (enc : TwoBit) (n : NonLoopingAT)
    (visited : SeenSet) (b : Char)
    (h : (n.chained visited).is_candidate direction enc b = true) :
    n.graph.get_count (n.get_neighbor direction enc n.cursor b) ≠ 0 ∧
      apply_kmer_filters (n.get_neighbor direction enc n.cursor b) n.filters = false ∧
      (n.get_neighbor direction enc n.cursor b).kmer_u ∉ visited := by
  simp only [AssemblerTraverser.is_candidate, NonLoopingAT.chained,
    apply_kmer_filters_append, Bool.and_eq_true, decide_eq_true_eq, Bool.not_eq_true',
    Bool.or_eq_false_iff] at h
  obtain ⟨h1, h2, h3⟩ := h
  refine ⟨h1, h2, ?_⟩
  simpa [apply_kmer_filters, get_visited_filter, AssemblerTraverser.get_neighbor] using h3

theorem nonlooping_next_symbol_eq (direction : Bool) (enc : TwoBit) (n : NonLoopingAT)
    (visited : SeenSet) :
    n.next_symbol direction enc visited =
      match (n.chained (insert n.cursor.kmer_u visited)).candidates direction enc with
      | [b] => (b, { n with cursor := n.get_neighbor direction enc n.cursor b },
          insert n.cursor.kmer_u visited)
      | _ => (STOP, n, insert n.cursor.kmer_u visited) := by
  unfold NonLoopingAT.next_symbol
  simp only [next_symbol_eq]
  cases hr : (n.chained (insert n.cursor.kmer_u visited)).candidates direction enc with
  | nil => rfl
  | cons c cs =>
    cases cs with
    | nil => rfl
    | cons d ds => rfl

theorem nonlooping_step_cases (direction : Bool) (enc : TwoBit) (n : NonLoopingAT)
    (visited : SeenSet) :
    (n.next_symbol direction enc visited).2.2 = insert n.cursor.kmer_u visited ∧
      (((n.next_symbol direction enc visited).1 = STOP ∧
          (n.next_symbol direction enc visited).2.1 = n) ∨
        ((n.next_symbol direction enc visited).1 ≠ STOP ∧
          (n.next_symbol direction enc visited).2.1 =
            { n with cursor := (n.get_neighbor direction enc n.cursor
                (n.next_symbol direction enc visited).1) } ∧
          (n.chained (insert n.cursor.kmer_u visited)).is_candidate direction enc
            (n.next_symbol direction enc visited).1 = true)) := by
  rw [nonlooping_next_symbol_eq]
  cases hr : (n.chained (insert n.cursor.kmer_u visited)).candidates direction enc with
  | nil => simp
  | cons c cs =>
    cases cs with
    | nil =>
      have hc : c ∈ (n.chained (insert n.cursor.kmer_u visited)).candidates direction enc := by
        rw [hr]; simp
      have hne := mem_DNA_SIMPLE_ne_STOP c (candidates_subset direction enc _ c hc)
      have hcand := (List.mem_filter.mp hc).2
      simp [hne, hcand]
    | cons d ds => simp

/-- The set after a call: the cursor of before the call has been inserted. -/
theorem nonlooping_step_visited (direction : Bool) (enc : TwoBit) (n : NonLoopingAT)
    (visited : SeenSet) :
    (n.next_symbol direction enc visited).2.2 = insert n.cursor.kmer_u visited := rfl

/-- A call that returns a base leaves the cursor on a k-mer outside the set after the call. -/
theorem nonlooping_step_fresh (direction : Bool) (enc : TwoBit) (n : NonLoopingAT)
    (visited : SeenSet) (h : (n.next_symbol direction enc visited).1 ≠ STOP) :
    (n.next_symbol direction enc visited).2.1.cursor.kmer_u ∉
      insert n.cursor.kmer_u visited := by
  obtain ⟨-, h0 | ⟨-, h2, h3⟩⟩ := nonlooping_step_cases direction enc n visited
  · exact absurd h0.1 h
  · rw [h2]
    exact (chained_candidate direction enc n _ _ h3).2.2

/-- C8 (the current position is marked before stepping): after one call of
`NonLoopingAT::next_symbol` the visited set is the previous visited set united with the cursor as
it was before the call, whether a base or STOP was returned; in particular the set only grows. -/
theorem nonlooping_marks_current (direction : Bool) (enc : TwoBit) (n : NonLoopingAT)
    (visited : SeenSet) :
    (n.next_symbol direction enc visited).2.2 = insert n.cursor.kmer_u visited ∧
      visited ⊆ (n.next_symbol direction enc visited).2.2 :=
  ⟨rfl, Finset.subset_insert _ _⟩

theorem pair_step_visited (enc : TwoBit) (w : CursorPair) (direction : Bool) :
    (w.next_symbol enc direction).2.visited = insert (w.cursor_of direction).kmer_u w.visited := by
  cases direction <;> rfl

theorem pair_step_fresh (enc : TwoBit) (w : CursorPair) (direction : Bool)
    (h : (w.next_symbol enc direction).1 ≠ STOP) :
    ((w.next_symbol enc direction).2.cursor_of direction).kmer_u ∉
      insert (w.cursor_of direction).kmer_u w.visited := by
  cases direction with
  | false => exact nonlooping_step_fresh LEFT enc w.left w.visited h
  | true => exact nonlooping_step_fresh RIGHT enc w.right w.visited h

theorem pair_run_visited_mono (enc : TwoBit) (s : List Bool) :
    ∀ w : CursorPair, w.visited ⊆ (w.run enc s).visited := by
  induction s with
  | nil => intro w; exact Finset.Subset.refl _
  | cons d rest ih =>
    intro w
    refine Finset.Subset.trans ?_ (ih (w.next_symbol enc d).2)
    rw [pair_step_visited]
    exact Finset.subset_insert _ _

/-- C9 (shared visited set): for a leftward and a rightward cursor over one visited set and
every interleaving of their calls, once a call of either cursor has attempted a step from
position `p` (the call `d1` after the calls `s1`), no later call of either cursor (the call `d2`
after the further calls `s2`) that returns a base moves that cursor to `p`: the new cursor differs
from `p` already in its unique hash. -/
theorem shared_visited_excludes (enc : TwoBit) (w : CursorPair) (s1 s2 : List Bool)
    (d1 d2 : Bool)
    (h : ((((w.run enc s1).next_symbol enc d1).2.run enc s2).next_symbol enc d2).1 ≠ STOP) :
    (((((w.run enc s1).next_symbol enc d1).2.run enc s2).next_symbol enc d2).2.cursor_of
        d2).kmer_u ≠ ((w.run enc s1).cursor_of d1).kmer_u ∧
      ((((w.run enc s1).next_symbol enc d1).2.run enc s2).next_symbol enc d2).2.cursor_of d2 ≠
        (w.run enc s1).cursor_of d1 := by
  suffices hkey : (((((w.run enc s1).next_symbol enc d1).2.run enc s2).next_symbol enc
      d2).2.cursor_of d2).kmer_u ≠ ((w.run enc s1).cursor_of d1).kmer_u from
    ⟨hkey, fun hk => hkey (congrArg Kmer.kmer_u hk)⟩
  intro hEq
  have hfresh := pair_step_fresh enc _ d2 h
  have hmono := pair_run_visited_mono enc s2 ((w.run enc s1).next_symbol enc d1).2
  rw [pair_step_visited] at hmono
  apply hfresh
  rw [hEq]
  exact Finset.mem_insert_of_mem (hmono (Finset.mem_insert_self _ _))

theorem nonlooping_next_symbol_idem (direction : Bool) (enc : TwoBit) (n : NonLoopingAT)
    (visited : SeenSet) :
    n.next_symbol direction enc (insert n.cursor.kmer_u visited) =
      n.next_symbol direction enc visited := by
  rw [nonlooping_next_symbol_eq, nonlooping_next_symbol_eq, Finset.insert_idem]

theorem run_succ (direction : Bool) (enc : TwoBit) (m : Nat) (n : NonLoopingAT)
    (visited : SeenSet) :
    n.run direction enc (m + 1) visited =
      ((n.cursor, (n.next_symbol direction enc visited).1) ::
          ((n.next_symbol direction enc visited).2.1.run direction enc m
            (n.next_symbol direction enc visited).2.2).1,
        ((n.next_symbol direction enc visited).2.1.run direction enc m
            (n.next_symbol direction enc visited).2.2).2) := rfl

theorem run_length (direction : Bool) (enc : TwoBit) (m : Nat) :
    ∀ (n : NonLoopingAT) (visited : SeenSet), (n.run direction enc m visited).1.length = m := by
  induction m with
  | zero => intro n visited; rfl
  | succ m ih => intro n visited; rw [run_succ]; simp [ih]

theorem run_stopped (direction : Bool) (enc : TwoBit) (n : NonLoopingAT) (visited : SeenSet)
    (hstop : (n.next_symbol direction enc visited).1 = STOP) (m : Nat) :
    n.run direction enc m (insert n.cursor.kmer_u visited) =
      (List.replicate m (n.cursor, STOP), n, insert n.cursor.kmer_u visited) := by
  induction m with
  | zero => rfl
  | succ m ih =>
    obtain ⟨h0, h | h⟩ := nonlooping_step_cases direction enc n visited
    · rw [run_succ, nonlooping_next_symbol_idem, h.1, h.2, h0, ih]
      rfl
    · exact absurd hstop h.1

theorem successes_cons (e : Kmer × Char) (calls : List (Kmer × Char)) :
    successes (e :: calls) = (if e.2 = STOP then 0 else 1) + successes calls := by
  unfold successes
  by_cases h : e.2 = STOP
  · simp [List.filter_cons, h]
  · simp [List.filter_cons, h]; omega

theorem successes_replicate (m : Nat) (c : Kmer) : successes (List.replicate m (c, STOP)) = 0 := by
  induction m with
  | zero => rfl
  | succ m ih => rw [List.replicate_succ, successes_cons, ih]; simp

theorem run_positions_nodup (direction : Bool) (enc : TwoBit) (m : Nat) :
    ∀ (n : NonLoopingAT) (visited : SeenSet), n.cursor.kmer_u ∉ visited →
      (∀ e ∈ (n.run direction enc m visited).1, e.2 ≠ STOP) →
      ((n.run direction enc (m + 1) visited).1.map (fun e => e.1.kmer_u)).Nodup ∧
        ∀ e ∈ (n.run direction enc (m + 1) visited).1, e.1.kmer_u ∉ visited := by
  induction m with
  | zero =>
    intro n visited hfresh _
    simp [run_succ, NonLoopingAT.run, hfresh]
  | succ m ih =>
    intro n visited hfresh hall
    rw [run_succ] at hall
    have hne : (n.next_symbol direction enc visited).1 ≠ STOP :=
      hall _ (List.mem_cons_self _ _)
    have hrest : ∀ e ∈ ((n.next_symbol direction enc visited).2.1.run direction enc m
        (n.next_symbol direction enc visited).2.2).1, e.2 ≠ STOP :=
      fun e he => hall e (List.mem_cons_of_mem _ he)
    have hnew := nonlooping_step_fresh direction enc n visited hne
    have hV := nonlooping_step_visited direction enc n visited
    rw [← hV] at hnew
    obtain ⟨ih1, ih2⟩ := ih _ _ hnew hrest
    rw [run_succ]
    constructor
    · rw [List.map_cons, List.nodup_cons]
      refine ⟨?_, ih1⟩
      intro hmem
      obtain ⟨e, he, hke⟩ := List.mem_map.mp hmem
      apply ih2 e he
      rw [hV, hke]
      exact Finset.mem_insert_self _ _
    · intro e he
      rcases List.mem_cons.mp he with rfl | he
      · exact hfresh
      · intro hin
        apply ih2 e he
        rw [hV]
        exact Finset.mem_insert_of_mem hin

theorem run_successes_le (direction : Bool) (enc : TwoBit) (S : Finset Nat) (m : Nat) :
    ∀ (n : NonLoopingAT) (visited : SeenSet),
      (∀ node, n.graph.get_count node ≠ 0 → node.kmer_u ∈ S) →
      successes (n.run direction enc m visited).1 ≤
        (S \ insert n.cursor.kmer_u visited).card := by
  induction m with
  | zero => intro n visited _; simp [NonLoopingAT.run, successes]
  | succ m ih =>
    intro n visited hS
    obtain ⟨h0, h | ⟨h1, h2, h3⟩⟩ := nonlooping_step_cases direction enc n visited
    · have hrun := run_stopped direction enc n visited h.1 m
      rw [run_succ, successes_cons, h.2, h0, hrun]
      simp [h.1, successes_replicate]
    · have hc := chained_candidate direction enc n _ _ h3
      have hih := ih (n.next_symbol direction enc visited).2.1
        (n.next_symbol direction enc visited).2.2 (by rw [h2]; exact hS)
      rw [run_succ, successes_cons, if_neg h1]
      have hcur : (n.next_symbol direction enc visited).2.1.cursor =
          n.get_neighbor direction enc n.cursor (n.next_symbol direction enc visited).1 := by
        rw [h2]
      have hset : S \ insert (n.next_symbol direction enc visited).2.1.cursor.kmer_u
          (n.next_symbol direction enc visited).2.2 =
          S \ insert (n.get_neighbor direction enc n.cursor
            (n.next_symbol direction enc visited).1).kmer_u (insert n.cursor.kmer_u visited) := by
        rw [h0, hcur]
      rw [hset] at hih
      have hmem : (n.get_neighbor direction enc n.cursor
          (n.next_symbol direction enc visited).1).kmer_u ∈ S \ insert n.cursor.kmer_u visited :=
        Finset.mem_sdiff.mpr ⟨hS _ hc.1, hc.2.2⟩
      have hcard : (S \ insert (n.get_neighbor direction enc n.cursor
          (n.next_symbol direction enc visited).1).kmer_u (insert n.cursor.kmer_u visited)).card <
          (S \ insert n.cursor.kmer_u visited).card := by
        apply Finset.card_lt_card
        rw [Finset.ssubset_iff_of_subset]
        · exact ⟨_, hmem, fun hx => (Finset.mem_sdiff.mp hx).2 (Finset.mem_insert_self _ _)⟩
        · intro x hx
          rw [Finset.mem_sdiff] at hx ⊢
          exact ⟨hx.1, fun hx2 => hx.2 (Finset.mem_insert_of_mem hx2)⟩
      omega

theorem getLast?_cons_of_ne_nil {α : Type} (a : α) (l : List α) (h : l ≠ []) :
    (a :: l).getLast? = l.getLast? := by
  cases l with
  | nil => exact absurd rfl h
  | cons b l => simp

theorem run_visited_card (direction : Bool) (enc : TwoBit) (m : Nat) :
    ∀ (n : NonLoopingAT) (visited : SeenSet), n.cursor.kmer_u ∉ visited →
      ∀ e, (n.run direction enc m visited).1.getLast? = some e → e.2 = STOP →
        (n.run direction enc m visited).2.2.card =
          visited.card + successes (n.run direction enc m visited).1 + 1 := by
  induction m with
  | zero => intro n visited _ e he; simp [NonLoopingAT.run] at he
  | succ m ih =>
    intro n visited hfresh e he hstop
    obtain ⟨h0, h | ⟨h1, h2, h3⟩⟩ := nonlooping_step_cases direction enc n visited
    · have hrun := run_stopped direction enc n visited h.1 m
      rw [run_succ, successes_cons, h.2, h0, hrun]
      simp [h.1, successes_replicate, Finset.card_insert_of_not_mem hfresh]
    · have hnew := nonlooping_step_fresh direction enc n visited h1
      rw [← h0] at hnew
      rw [run_succ] at he ⊢
      rw [successes_cons, if_neg h1]
      cases m with
      | zero =>
        simp [NonLoopingAT.run] at he
        rw [← he] at hstop
        exact absurd hstop h1
      | succ m =>
        have hne : ((n.next_symbol direction enc visited).2.1.run direction enc (m + 1)
            (n.next_symbol direction enc visited).2.2).1 ≠ [] := by
          intro hnil
          have := run_length direction enc (m + 1) (n.next_symbol direction enc visited).2.1
            (n.next_symbol direction enc visited).2.2
          rw [hnil] at this
          simp at this
        rw [getLast?_cons_of_ne_nil _ _ hne] at he
        rw [ih _ _ hnew e he hstop, h0, Finset.card_insert_of_not_mem hfresh]
        omega

/-- C6, amended (loop avoidance of NonLoopingAT): for a single cursor created over an empty
visited set and any count store whose k-mers with nonzero count have their unique hashes in the
finite set `S`: if each of the first `m` calls returns a base, the positions from which the first
`m + 1` calls attempt a step are pairwise distinct under the unique hash; in any `m` consecutive
calls the number of successful steps is at most the size of `S`; a STOP is returned within the
first `|S| + 1` calls; and when the last of `m` calls returns STOP, the visited set has exactly
one element more than there were successful steps. -/
theorem nonlooping_walk (direction : Bool) (enc : TwoBit) (ht : Hashtable) (start_kmer : Kmer)
    (filters : List KmerFilter) (S : Finset Nat)
    (hS : ∀ node, ht.get_count node ≠ 0 → node.kmer_u ∈ S) (m : Nat) :
    ((∀ e ∈ (walk direction enc ht start_kmer filters m).1, e.2 ≠ STOP) →
        ((walk direction enc ht start_kmer filters (m + 1)).1.map
          (fun e => e.1.kmer_u)).Nodup) ∧
      successes (walk direction enc ht start_kmer filters m).1 ≤ S.card ∧
      (∃ e ∈ (walk direction enc ht start_kmer filters (S.card + 1)).1, e.2 = STOP) ∧
      (∀ e, (walk direction enc ht start_kmer filters m).1.getLast? = some e → e.2 = STOP →
        (walk direction enc ht start_kmer filters m).2.2.card =
          successes (walk direction enc ht start_kmer filters m).1 + 1) := by
  have hle : ∀ j, successes (walk direction enc ht start_kmer filters j).1 ≤ S.card := by
    intro j
    refine Nat.le_trans (run_successes_le direction enc S j _ _ hS) ?_
    exact Finset.card_le_card Finset.sdiff_subset
  refine ⟨?_, hle m, ?_, ?_⟩
  · intro hall
    exact (run_positions_nodup direction enc m _ ∅ (Finset.not_mem_empty _) hall).1
  · by_contra hno
    have hall : ∀ e ∈ (walk direction enc ht start_kmer filters (S.card + 1)).1,
        (e.2 != STOP) = true := by
      intro e he
      simp only [bne_iff_ne, ne_eq]
      exact fun h => hno ⟨e, he, h⟩
    have h1 := hle (S.card + 1)
    unfold successes at h1
    rw [List.filter_eq_self.mpr hall] at h1
    have h2 := run_length direction enc (S.card + 1) (NonLoopingAT.new ht start_kmer filters) ∅
    unfold walk at h1
    omega
  · intro e he hstop
    have := run_visited_card direction enc m _ ∅ (Finset.not_mem_empty _) e he hstop
    simpa using this

/-- C6 as stated fails once calls continue past STOP: over the store holding the cycle
ACG, CGA, GAC, a rightward cursor started at ACG steps to CGA and GAC, returns STOP at GAC, and
a fourth call attempts a step from GAC again, so the positions of four consecutive calls are
not pairwise distinct. -/
theorem nonlooping_positions_repeat_after_stop :
    (walk RIGHT khmer_code (store3 [11, 27, 50]) kmer_ACG [] 4).1.map
        (fun e => (e.1.kmer_u, e.2)) = [(11, 'A'), (27, 'C'), (50, STOP), (50, STOP)] ∧
      ¬ ((walk RIGHT khmer_code (store3 [11, 27, 50]) kmer_ACG [] 4).1.map
        (fun e => e.1.kmer_u)).Nodup := by
  constructor <;> decide

/-- An instance of the amended C6 on the cycle ACG, CGA, GAC with three calls. -/
theorem nonlooping_walk_witness :
    ((∀ e ∈ (walk RIGHT khmer_code (store3 [11, 27, 50]) kmer_ACG [] 3).1, e.2 ≠ STOP) →
        ((walk RIGHT khmer_code (store3 [11, 27, 50]) kmer_ACG [] (3 + 1)).1.map
          (fun e => e.1.kmer_u)).Nodup) ∧
      successes (walk RIGHT khmer_code (store3 [11, 27, 50]) kmer_ACG [] 3).1 ≤
        ({11, 27, 50} : Finset Nat).card ∧
      (∃ e ∈ (walk RIGHT khmer_code (store3 [11, 27, 50]) kmer_ACG []
          (({11, 27, 50} : Finset Nat).card + 1)).1, e.2 = STOP) ∧
      (∀ e, (walk RIGHT khmer_code (store3 [11, 27, 50]) kmer_ACG [] 3).1.getLast? = some e →
        e.2 = STOP →
        (walk RIGHT khmer_code (store3 [11, 27, 50]) kmer_ACG [] 3).2.2.card =
          successes (walk RIGHT khmer_code (store3 [11, 27, 50]) kmer_ACG [] 3).1 + 1) :=
  nonlooping_walk RIGHT khmer_code (store3 [11, 27, 50]) kmer_ACG [] {11, 27, 50}
    (by intro node h; simp [store3] at h; simp; tauto) 3

/-- An instance of C9: both cursors start at ACG over the cycle store; the rightward cursor
attempts a step from ACG and walks on to GAC, and the leftward cursor then steps, to a position
other than ACG. -/
theorem shared_visited_excludes_witness :
    (((((CursorPair.mk (NonLoopingAT.new (store3 [11, 27, 50]) kmer_ACG [])
          (NonLoopingAT.new (store3 [11, 27, 50]) kmer_ACG []) ∅).run khmer_code
          []).next_symbol khmer_code RIGHT).2.run khmer_code [RIGHT]).next_symbol khmer_code
          LEFT).1 ≠ STOP ∧
      ((((((CursorPair.mk (NonLoopingAT.new (store3 [11, 27, 50]) kmer_ACG [])
          (NonLoopingAT.new (store3 [11, 27, 50]) kmer_ACG []) ∅).run khmer_code
          []).next_symbol khmer_code RIGHT).2.run khmer_code [RIGHT]).next_symbol khmer_code
          LEFT).2.cursor_of LEFT).kmer_u ≠ 11 :=
  ⟨by decide,
    (shared_visited_excludes khmer_code
      (CursorPair.mk (NonLoopingAT.new (store3 [11, 27, 50]) kmer_ACG [])
        (NonLoopingAT.new (store3 [11, 27, 50]) kmer_ACG []) ∅) [] [RIGHT] RIGHT LEFT
      (by decide)).1⟩

/-! ## Degrees -/

theorem degree_left_loop_eq (enc : TwoBit) (t : Traverser) (node : Kmer) (l : List Char) :
    ∀ degree : Nat, t.degree_left_loop enc node l degree =
      degree + (l.filter
        (fun b => decide (t.graph.get_count (t.get_left enc node b) ≠ 0))).length := by
  induction l with
  | nil => intro degree; simp [Traverser.degree_left_loop]
  | cons base rest ih =>
    intro degree
    by_cases h : t.graph.get_count (t.get_left enc node base) ≠ 0
    · simp only [Traverser.degree_left_loop, h, List.filter_cons, ih, if_true, decide_True,
        ne_eq, not_false_eq_true, List.length_cons]
      omega
    · simp only [Traverser.degree_left_loop, h, List.filter_cons, ih, if_false, decide_False]
      simp

theorem degree_right_loop_eq (enc : TwoBit) (t : Traverser) (node : Kmer) (l : List Char) :
    ∀ degree : Nat, t.degree_right_loop enc node l degree =
      degree + (l.filter
        (fun b => decide (t.graph.get_count (t.get_right enc node b) ≠ 0))).length := by
  induction l with
  | nil => intro degree; simp [Traverser.degree_right_loop]
  | cons base rest ih =>
    intro degree
    by_cases h : t.graph.get_count (t.get_right enc node base) ≠ 0
    · simp only [Traverser.degree_right_loop, h, List.filter_cons, ih, if_true, decide_True,
        ne_eq, not_false_eq_true, List.length_cons]
      omega
    · simp only [Traverser.degree_right_loop, h, List.filter_cons, ih, if_false, decide_False]
      simp

theorem degree_left_eq (enc : TwoBit) (t : Traverser) (node : Kmer) :
    t.degree_left enc node = (DNA_SIMPLE.filter
      (fun b => decide (t.graph.get_count (t.get_left enc node b) ≠ 0))).length := by
  rw [Traverser.degree_left, degree_left_loop_eq, Nat.zero_add]

theorem degree_right_eq (enc : TwoBit) (t : Traverser) (node : Kmer) :
    t.degree_right enc node = (DNA_SIMPLE.filter
      (fun b => decide (t.graph.get_count (t.get_right enc node b) ≠ 0))).length := by
  rw [Traverser.degree_right, degree_right_loop_eq, Nat.zero_add]

theorem filter_DNA_SIMPLE_length_le (p : Char → Bool) : (DNA_SIMPLE.filter p).length ≤ 4 :=
  List.length_filter_le p DNA_SIMPLE

/-- C11 (degree definition and bounds): `degree_left(node)` is the number of symbols `b` of the
alphabet for which `get_count(get_left(node, b))` is nonzero, `degree_right(node)` the same number
with `get_right`; both lie between 0 and 4, and `degree(node)` is their sum. -/
theorem degree_counts (enc : TwoBit) (t : Traverser) (node : Kmer) :
    t.degree_left enc node = (DNA_SIMPLE.filter
        (fun b => decide (t.graph.get_count (t.get_left enc node b) ≠ 0))).length ∧
      t.degree_right enc node = (DNA_SIMPLE.filter
        (fun b => decide (t.graph.get_count (t.get_right enc node b) ≠ 0))).length ∧
      (0 ≤ t.degree_left enc node ∧ t.degree_left enc node ≤ 4) ∧
      (0 ≤ t.degree_right enc node ∧ t.degree_right enc node ≤ 4) ∧
      t.degree enc node = t.degree_left enc node + t.degree_right enc node := by
  refine ⟨degree_left_eq enc t node, degree_right_eq enc t node, ⟨Nat.zero_le _, ?_⟩,
    ⟨Nat.zero_le _, ?_⟩, ?_⟩
  · rw [degree_left_eq]; exact filter_DNA_SIMPLE_length_le _
  · rw [degree_right_eq]; exact filter_DNA_SIMPLE_length_le _
  · rw [Traverser.degree, Nat.add_comm]

theorem cursor_degree_eq_candidates (direction : Bool) (enc : TwoBit) (a : AssemblerTraverser)
    (hempty : a.filters = []) :
    a.cursor_degree direction enc = (a.candidates direction enc).length := by
  have hc : ∀ c, a.is_candidate direction enc c =
      decide (a.graph.get_count (a.get_neighbor direction enc a.cursor c) ≠ 0) := by
    intro c
    simp [AssemblerTraverser.is_candidate, hempty, apply_kmer_filters]
  unfold AssemblerTraverser.cursor_degree AssemblerTraverser.candidates
  have hfun : a.is_candidate direction enc =
      fun c => decide (a.graph.get_count (a.get_neighbor direction enc a.cursor c) ≠ 0) :=
    funext hc
  rw [hfun]
  cases direction with
  | true =>
    rw [if_pos rfl, degree_right_eq]
    rfl
  | false =>
    rw [if_neg (by decide), degree_left_eq]
    rfl

theorem next_symbol_cases (direction : Bool) (enc : TwoBit) (a : AssemblerTraverser) :
    ((a.candidates direction enc).length = 1 ∧ (a.next_symbol direction enc).1 ≠ STOP ∧
        (a.next_symbol direction enc).1 ∈ DNA_SIMPLE ∧
        (a.next_symbol direction enc).2 = { a with cursor :=
          (a.get_neighbor direction enc a.cursor (a.next_symbol direction enc).1) }) ∨
      ((a.candidates direction enc).length ≠ 1 ∧ a.next_symbol direction enc = (STOP, a)) := by
  rw [next_symbol_eq]
  cases hr : a.candidates direction enc with
  | nil => right; simp
  | cons c cs =>
    cases cs with
    | nil =>
      left
      have hc : c ∈ a.candidates direction enc := by rw [hr]; simp
      have hmem := candidates_subset direction enc a c hc
      exact ⟨rfl, mem_DNA_SIMPLE_ne_STOP c hmem, hmem, rfl⟩
    | cons d ds => right; simp

/-- C20 (cursor_degree predicts next_symbol without filters): for either direction and every
cursor with an empty filter chain, `next_symbol` returns a base if and only if `cursor_degree()`
before the call is 1, the cursor is then the neighbour for the base returned, and `next_symbol`
returns STOP if and only if `cursor_degree()` is 0 or at least 2. -/
theorem cursor_degree_predicts (direction : Bool) (enc : TwoBit) (a : AssemblerTraverser)
    (hempty : a.filters = []) :
    ((a.next_symbol direction enc).1 ≠ STOP ↔ a.cursor_degree direction enc = 1) ∧
      ((a.next_symbol direction enc).1 ≠ STOP →
        (a.next_symbol direction enc).1 ∈ DNA_SIMPLE ∧
          (a.next_symbol direction enc).2.cursor =
            a.get_neighbor direction enc a.cursor (a.next_symbol direction enc).1) ∧
      ((a.next_symbol direction enc).1 = STOP ↔
        (a.cursor_degree direction enc = 0 ∨ 2 ≤ a.cursor_degree direction enc)) := by
  rw [cursor_degree_eq_candidates direction enc a hempty]
  rcases next_symbol_cases direction enc a with ⟨h1, h2, h3, h4⟩ | ⟨h1, h2⟩
  · refine ⟨⟨fun _ => h1, fun _ => h2⟩, fun _ => ⟨h3, ?_⟩, ⟨fun h => absurd h h2, ?_⟩⟩
    · rw [h4]
    · intro h; omega
  · have hs : (a.next_symbol direction enc).1 = STOP := by rw [h2]
    refine ⟨⟨fun h => absurd hs h, fun h => absurd h h1⟩, fun h => absurd hs h,
      ⟨fun _ => ?_, fun _ => hs⟩⟩
    omega

/-! ## Joining contigs -/

theorem substr_of_le (s : List Char) (pos : Nat) (h : pos ≤ s.length) :
    substr s pos = some (s.drop pos) := by
  unfold substr
  rw [if_neg (by omega)]

/-- C12 (contig join formula): with k the k-mer length of the cursor, a rightward
`join_contigs(contig_a, contig_b)` with |contig_b| >= k returns `contig_a ++ drop k contig_b`, of
length |contig_a| + |contig_b| - k, and a leftward one with |contig_a| >= k returns
`contig_b ++ drop k contig_a`; both strings are after the call what they were before it. -/
theorem join_contigs_formula (a : AssemblerTraverser) (contig_a contig_b : List Char) :
    (a._ksize ≤ contig_b.length →
        a.join_contigs RIGHT contig_a contig_b =
            some (contig_a ++ contig_b.drop a._ksize, contig_a, contig_b) ∧
          (contig_a ++ contig_b.drop a._ksize).length =
            contig_a.length + contig_b.length - a._ksize) ∧
      (a._ksize ≤ contig_a.length →
        a.join_contigs LEFT contig_a contig_b =
            some (contig_b ++ contig_a.drop a._ksize, contig_a, contig_b)) := by
  constructor
  · intro h
    constructor
    · simp [AssemblerTraverser.join_contigs, substr_of_le _ _ h]
    · rw [List.length_append, List.length_drop]
      omega
  · intro h
    simp [AssemblerTraverser.join_contigs, substr_of_le _ _ h]

/-- C13 (left and right joins agree under operand swap): for |y| >= k the leftward
`join_contigs(y, x)` and the rightward `join_contigs(x, y)` both return `x ++ drop k y`; and when
the last k characters of `x` are the first k characters of `y`, that string holds the overlap
once: it is also `x` without its last k characters followed by `y`. -/
theorem join_contigs_swap (a : AssemblerTraverser) (x y : List Char)
    (hy : a._ksize ≤ y.length) :
    (a.join_contigs LEFT y x).map (fun r => r.1) = some (x ++ y.drop a._ksize) ∧
      (a.join_contigs RIGHT x y).map (fun r => r.1) = some (x ++ y.drop a._ksize) ∧
      (x.drop (x.length - a._ksize) = y.take a._ksize →
        x ++ y.drop a._ksize = x.take (x.length - a._ksize) ++ y) := by
  refine ⟨?_, ?_, ?_⟩
  · simp [AssemblerTraverser.join_contigs, substr_of_le _ _ hy]
  · simp [AssemblerTraverser.join_contigs, substr_of_le _ _ hy]
  · intro hov
    conv_lhs => rw [← List.take_append_drop (x.length - a._ksize) x]
    conv_rhs => rw [← List.take_append_drop a._ksize y]
    rw [hov, List.append_assoc]

/-! ## Cursor operations: set_cursor, the filter stack, calls after STOP -/

theorem apply_kmer_filters_eq_false (node : Kmer) (filters : List KmerFilter) :
    apply_kmer_filters node filters = false ↔ ∀ f ∈ filters, f node = false := by
  simp [apply_kmer_filters]

/-- C14 (set_cursor): `set_cursor(node)` returns true if and only if no filter of the chain
rejects `node`; when it returns true the object differs from the old one in the cursor only,
which is `node`; when it returns false the object is unchanged; the chain is unchanged in both
cases; and the flag and the cursor afterwards are the same over any other count store. -/
theorem set_cursor_spec (a : AssemblerTraverser) (node : Kmer) :
    ((a.set_cursor node).1 = true ↔ ∀ f ∈ a.filters, f node = false) ∧
      ((a.set_cursor node).1 = true → (a.set_cursor node).2 = { a with cursor := node }) ∧
      ((a.set_cursor node).1 = false → (a.set_cursor node).2 = a) ∧
      (a.set_cursor node).2.filters = a.filters ∧
      (∀ graph : Hashtable,
        (({ a with graph := graph } : AssemblerTraverser).set_cursor node).1 =
            (a.set_cursor node).1 ∧
          (({ a with graph := graph } : AssemblerTraverser).set_cursor node).2.cursor =
            (a.set_cursor node).2.cursor) := by
  have hgraph : ∀ graph : Hashtable, apply_kmer_filters node
      ({ a with graph := graph } : AssemblerTraverser).filters =
      apply_kmer_filters node a.filters := fun _ => rfl
  cases h : apply_kmer_filters node a.filters with
  | false =>
    have h2 := (apply_kmer_filters_eq_false node a.filters).mp h
    have e : a.set_cursor node = (true, { a with cursor := node }) := by
      simp [AssemblerTraverser.set_cursor, h]
    refine ⟨?_, ?_, ?_, ?_, ?_⟩
    · rw [e]; exact ⟨fun _ => h2, fun _ => rfl⟩
    · intro _; rw [e]
    · intro hf; rw [e] at hf; exact absurd hf (by simp)
    · rw [e]
    · intro graph
      have e2 : ({ a with graph := graph } : AssemblerTraverser).set_cursor node =
          (true, { ({ a with graph := graph } : AssemblerTraverser) with cursor := node }) := by
        simp [AssemblerTraverser.set_cursor, hgraph graph, h]
      rw [e, e2]
      exact ⟨rfl, rfl⟩
  | true =>
    have h2 : ¬ ∀ f ∈ a.filters, f node = false := by
      intro hall
      rw [(apply_kmer_filters_eq_false node a.filters).mpr hall] at h
      exact absurd h (by simp)
    have e : a.set_cursor node = (false, a) := by
      simp [AssemblerTraverser.set_cursor, h]
    refine ⟨?_, ?_, ?_, ?_, ?_⟩
    · rw [e]; exact ⟨fun hf => absurd hf (by simp), fun hall => absurd hall h2⟩
    · intro hf; rw [e] at hf; exact absurd hf (by simp)
    · intro _; rw [e]
    · rw [e]
    · intro graph
      have e2 : ({ a with graph := graph } : AssemblerTraverser).set_cursor node =
          (false, ({ a with graph := graph } : AssemblerTraverser)) := by
        simp [AssemblerTraverser.set_cursor, hgraph graph, h]
      rw [e, e2]
      exact ⟨rfl, rfl⟩

theorem pop_filter_append (a : AssemblerTraverser) (F : List KmerFilter) (f : KmerFilter)
    (h : a.filters = F ++ [f]) :
    a.pop_filter = some (f, { a with filters := F }) := by
  unfold AssemblerTraverser.pop_filter
  rw [h, List.getLast?_append, List.dropLast_concat]
  rfl

/-- C16 (push_filter and pop_filter are a stack on the end of the chain): `push_filter(f)` makes
the chain `F ++ [f]` and keeps the cursor; `pop_filter` on a chain `F ++ [f]` returns `f` and
leaves the chain `F`; `push_filter(f)` followed by `pop_filter` returns `f` and restores the
object; and `pop_filter` keeps the cursor. -/
theorem push_pop_stack (a : AssemblerTraverser) (f : KmerFilter) :
    (a.push_filter f).filters = a.filters ++ [f] ∧
      (a.push_filter f).cursor = a.cursor ∧
      (∀ F : List KmerFilter, a.filters = F ++ [f] →
        a.pop_filter = some (f, { a with filters := F })) ∧
      (a.push_filter f).pop_filter = some (f, a) ∧
      (∀ r, a.pop_filter = some r → r.2.cursor = a.cursor) := by
  refine ⟨rfl, rfl, fun F h => pop_filter_append a F f h, ?_, ?_⟩
  · exact pop_filter_append (a.push_filter f) a.filters f rfl
  · intro r hr
    unfold AssemblerTraverser.pop_filter at hr
    cases hl : a.filters.getLast? with
    | none => rw [hl] at hr; simp at hr
    | some back =>
      rw [hl] at hr
      simp only [Option.some.injEq] at hr
      rw [← hr]

theorem complement_complement (c : Char) (hc : c ∈ DNA_SIMPLE) :
    complement (complement c) = c := by
  simp only [DNA_SIMPLE, List.mem_cons, List.mem_singleton, List.not_mem_nil, or_false] at hc
  rcases hc with rfl | rfl | rfl | rfl <;> decide

/-- C19 (strand mirror symmetry): for every traverser, node and base `c`, if `twobit_comp` of a
base is the `twobit_repr` code of its complementary base, then `get_left(node, c)` is the strand
swap of `get_right(strand swap of node, complement(c))`: the `kmer_f` of the one is the `kmer_r`
of the other and conversely.  No bound on k or on the hashes is needed. -/
theorem strand_mirror (enc : TwoBit)
    (hcomp : ∀ c ∈ DNA_SIMPLE, enc.twobit_comp c = enc.twobit_repr (complement c))
    (t : Traverser) (node : Kmer) (c : Char) (hc : c ∈ DNA_SIMPLE) :
    (t.get_left enc node c).kmer_f =
        (t.get_right enc (strand_swap node) (complement c)).kmer_r ∧
      (t.get_left enc node c).kmer_r =
        (t.get_right enc (strand_swap node) (complement c)).kmer_f := by
  have h1 : enc.twobit_comp (complement c) = enc.twobit_repr c := by
    rw [hcomp _ (complement_mem c hc), complement_complement c hc]
  have h2 := hcomp c hc
  constructor
  · simp only [Traverser.get_left, Traverser.get_right, strand_swap, build_kmer, h1]
  · simp only [Traverser.get_left, Traverser.get_right, strand_swap, build_kmer, h2]

theorem next_symbol_stop_unchanged (direction : Bool) (enc : TwoBit) (a : AssemblerTraverser)
    (h : (a.next_symbol direction enc).1 = STOP) : a.next_symbol direction enc = (STOP, a) := by
  rw [next_symbol_eq] at h ⊢
  cases hr : a.candidates direction enc with
  | nil => rfl
  | cons c cs =>
    cases cs with
    | nil =>
      rw [hr] at h
      have hc : c ∈ a.candidates direction enc := by rw [hr]; simp
      exact absurd h (mem_DNA_SIMPLE_ne_STOP c (candidates_subset direction enc a c hc))
    | cons d ds => rfl

/-- C17 (STOPPED is terminal): for either direction, if a call of
`AssemblerTraverser::next_symbol` returns STOP, then each of any number `m` of further consecutive
calls returns STOP too and the object, the cursor included, stays what it was. -/
theorem stop_is_terminal (direction : Bool) (enc : TwoBit) (a : AssemblerTraverser)
    (h : (a.next_symbol direction enc).1 = STOP) (m : Nat) :
    a.calls direction enc m = (List.replicate m STOP, a) := by
  have hs := next_symbol_stop_unchanged direction enc a h
  induction m with
  | zero => rfl
  | succ m ih =>
    simp only [AssemblerTraverser.calls, hs, ih, List.replicate_succ]

theorem push_filter_candidate (direction : Bool) (enc : TwoBit) (a : AssemblerTraverser)
    (f : KmerFilter) (c : Char) :
    (a.push_filter f).is_candidate direction enc c =
      (a.is_candidate direction enc c && !f (a.get_neighbor direction enc a.cursor c)) := by
  simp only [AssemblerTraverser.is_candidate, AssemblerTraverser.push_filter,
    apply_kmer_filters_append, AssemblerTraverser.get_neighbor]
  simp [apply_kmer_filters, Bool.and_assoc]

theorem next_symbol_no_candidate (direction : Bool) (enc : TwoBit) (a : AssemblerTraverser)
    (h : ∀ c ∈ DNA_SIMPLE, a.is_candidate direction enc c = false) :
    a.next_symbol direction enc = (STOP, a) := by
  have hnil : a.candidates direction enc = [] := by
    unfold AssemblerTraverser.candidates
    rw [List.filter_eq_nil_iff]
    intro c hc
    rw [h c hc]
    simp
  rw [next_symbol_eq, hnil]

/-- C15 (filter stacking): when exactly one symbol `b` is a candidate at the cursor, with
neighbour `n`, and `f` rejects `n`, then after `push_filter(f)` a call of `next_symbol` returns
STOP and leaves the object, so the cursor, unchanged; the subsequent `pop_filter` returns `f`
and leaves the object as it was before the push; and on that object `next_symbol` returns `b`
and the cursor becomes `n`. -/
theorem filter_stacking (direction : Bool) (enc : TwoBit) (a : AssemblerTraverser)
    (b : Char) (f : KmerFilter) (hb : b ∈ DNA_SIMPLE)
    (hcand : a.is_candidate direction enc b = true)
    (huniq : ∀ c ∈ DNA_SIMPLE, a.is_candidate direction enc c = true → c = b)
    (hf : f (a.get_neighbor direction enc a.cursor b) = true) :
    (a.push_filter f).next_symbol direction enc = (STOP, a.push_filter f) ∧
      ((a.push_filter f).next_symbol direction enc).2.cursor = a.cursor ∧
      ((a.push_filter f).next_symbol direction enc).2.pop_filter = some (f, a) ∧
      a.next_symbol direction enc =
        (b, { a with cursor := a.get_neighbor direction enc a.cursor b }) := by
  have hstop : (a.push_filter f).next_symbol direction enc = (STOP, a.push_filter f) := by
    apply next_symbol_no_candidate
    intro c hc
    rw [push_filter_candidate]
    by_cases hcb : c = b
    · subst hcb
      simp [hf]
    · rw [not_candidate_of_ne direction enc a b c hc hcb huniq]
      rfl
  refine ⟨hstop, by rw [hstop]; rfl, ?_, ?_⟩
  · rw [hstop]
    exact pop_filter_append (a.push_filter f) a.filters f rfl
  · rw [next_symbol_eq, candidates_eq_singleton direction enc a b hb hcand huniq]

/-! ## The number of symbols an enumeration tries -/

theorem traverse_left_counted_cons (enc : TwoBit) (t : Traverser) (node : Kmer)
    (filter : Option (Kmer → Bool)) (max_neighbors : Nat) (base : Char) (rest : List Char)
    (found : Nat) (node_q : List Kmer) (tried : Nat) :
    t.traverse_left_counted enc node filter max_neighbors (base :: rest) found node_q tried =
      if t.is_kept filter (t.get_left enc node base) = true then
        (if found + 1 > max_neighbors then
          ((found + 1, node_q ++ [t.get_left enc node base]), tried + 1)
         else t.traverse_left_counted enc node filter max_neighbors rest (found + 1)
           (node_q ++ [t.get_left enc node base]) (tried + 1))
      else t.traverse_left_counted enc node filter max_neighbors rest found node_q
        (tried + 1) := by
  simp only [Traverser.traverse_left_counted, is_kept_iff]

theorem traverse_left_counted_fst (enc : TwoBit) (t : Traverser) (node : Kmer)
    (filter : Option (Kmer → Bool)) (max_neighbors : Nat) (l : List Char) :
    ∀ (found : Nat) (node_q : List Kmer) (tried : Nat),
      (t.traverse_left_counted enc node filter max_neighbors l found node_q tried).1 =
        t.traverse_left_loop enc node filter max_neighbors l found node_q := by
  induction l with
  | nil => intro found node_q tried; rfl
  | cons base rest ih =>
    intro found node_q tried
    rw [traverse_left_counted_cons, traverse_left_loop_cons]
    cases hk : t.is_kept filter (t.get_left enc node base) with
    | false => simp only [Bool.false_eq_true, if_false]; exact ih _ _ _
    | true =>
      simp only [if_true]
      by_cases hmax : found + 1 > max_neighbors
      · rw [if_pos hmax, if_pos hmax]
      · rw [if_neg hmax, if_neg hmax]; exact ih _ _ _

theorem traverse_left_counted_snd (enc : TwoBit) (t : Traverser) (node : Kmer)
    (filter : Option (Kmer → Bool)) (max_neighbors : Nat) (l : List Char) :
    ∀ (found : Nat) (node_q : List Kmer) (tried : Nat), found ≤ max_neighbors →
      tried ≤ (t.traverse_left_counted enc node filter max_neighbors l found node_q tried).2 ∧
      (t.traverse_left_counted enc node filter max_neighbors l found node_q tried).2 ≤
        tried + l.length ∧
      ((l.take ((t.traverse_left_counted enc node filter max_neighbors l found node_q
          tried).2 - tried)).map (t.get_left enc node)).filter (t.is_kept filter) =
        ((l.map (t.get_left enc node)).filter (t.is_kept filter)).take
          (max_neighbors + 1 - found) ∧
      ((t.traverse_left_counted enc node filter max_neighbors l found node_q tried).2 <
          tried + l.length →
        max_neighbors + 1 - found ≤
          ((l.map (t.get_left enc node)).filter (t.is_kept filter)).length) := by
  induction l with
  | nil =>
    intro found node_q tried _
    simp [Traverser.traverse_left_counted]
  | cons base rest ih =>
    intro found node_q tried hfound
    rw [traverse_left_counted_cons]
    cases hk : t.is_kept filter (t.get_left enc node base) with
    | false =>
      simp only [Bool.false_eq_true, if_false, List.map_cons, List.filter_cons, hk,
        List.length_cons]
      obtain ⟨h1, h2, h3, h4⟩ := ih found node_q (tried + 1) hfound
      refine ⟨by omega, by omega, ?_, fun hlt => h4 (by omega)⟩
      have e : (t.traverse_left_counted enc node filter max_neighbors rest found node_q
          (tried + 1)).2 - tried = ((t.traverse_left_counted enc node filter max_neighbors
          rest found node_q (tried + 1)).2 - (tried + 1)) + 1 := by omega
      rw [e, List.take_succ_cons, List.map_cons, List.filter_cons, hk]
      simpa using h3
    | true =>
      simp only [if_true, List.map_cons, List.filter_cons, hk, List.length_cons]
      by_cases hmax : found + 1 > max_neighbors
      · have e : max_neighbors + 1 - found = 1 := by omega
        rw [if_pos hmax, e]
        refine ⟨by simp, by simp, ?_, fun _ => by omega⟩
        simp [hk]
      · rw [if_neg hmax]
        obtain ⟨h1, h2, h3, h4⟩ := ih (found + 1) (node_q ++ [t.get_left enc node base])
          (tried + 1) (by omega)
        refine ⟨by omega, by omega, ?_, fun hlt => ?_⟩
        · have e : (t.traverse_left_counted enc node filter max_neighbors rest (found + 1)
              (node_q ++ [t.get_left enc node base]) (tried + 1)).2 - tried =
              ((t.traverse_left_counted enc node filter max_neighbors rest (found + 1)
              (node_q ++ [t.get_left enc node base]) (tried + 1)).2 - (tried + 1)) + 1 := by
            omega
          have e2 : max_neighbors + 1 - found = (max_neighbors + 1 - (found + 1)) + 1 := by
            omega
          rw [e, e2, List.take_succ_cons, List.map_cons, List.filter_cons, hk,
            List.take_succ_cons]
          simp only [if_true]
          rw [h3]
        · have := h4 (by omega)
          omega

theorem traverse_right_counted_cons (enc : TwoBit) (t : Traverser) (node : Kmer)
    (filter : Option (Kmer → Bool)) (max_neighbors : Nat) (base : Char) (rest : List Char)
    (found : Nat) (node_q : List Kmer) (tried : Nat) :
    t.traverse_right_counted enc node filter max_neighbors (base :: rest) found node_q tried =
      if t.is_kept filter (t.get_right enc node base) = true then
        (if found + 1 > max_neighbors then
          ((found + 1, node_q ++ [t.get_right enc node base]), tried + 1)
         else t.traverse_right_counted enc node filter max_neighbors rest (found + 1)
           (node_q ++ [t.get_right enc node base]) (tried + 1))
      else t.traverse_right_counted enc node filter max_neighbors rest found node_q
        (tried + 1) := by
  simp only [Traverser.traverse_right_counted, is_kept_iff]

theorem traverse_right_counted_fst (enc : TwoBit) (t : Traverser) (node : Kmer)
    (filter : Option (Kmer → Bool)) (max_neighbors : Nat) (l : List Char) :
    ∀ (found : Nat) (node_q : List Kmer) (tried : Nat),
      (t.traverse_right_counted enc node filter max_neighbors l found node_q tried).1 =
        t.traverse_right_loop enc node filter max_neighbors l found node_q := by
  induction l with
  | nil => intro found node_q tried; rfl
  | cons base rest ih =>
    intro found node_q tried
    rw [traverse_right_counted_cons, traverse_right_loop_cons]
    cases hk : t.is_kept filter (t.get_right enc node base) with
    | false => simp only [Bool.false_eq_true, if_false]; exact ih _ _ _
    | true =>
      simp only [if_true]
      by_cases hmax : found + 1 > max_neighbors
      · rw [if_pos hmax, if_pos hmax]
      · rw [if_neg hmax, if_neg hmax]; exact ih _ _ _

theorem traverse_right_counted_snd (enc : TwoBit) (t : Traverser) (node : Kmer)
    (filter : Option (Kmer → Bool)) (max_neighbors : Nat) (l : List Char) :
    ∀ (found : Nat) (node_q : List Kmer) (tried : Nat), found ≤ max_neighbors →
      tried ≤ (t.traverse_right_counted enc node filter max_neighbors l found node_q tried).2 ∧
      (t.traverse_right_counted enc node filter max_neighbors l found node_q tried).2 ≤
        tried + l.length ∧
      ((l.take ((t.traverse_right_counted enc node filter max_neighbors l found node_q
          tried).2 - tried)).map (t.get_right enc node)).filter (t.is_kept filter) =
        ((l.map (t.get_right enc node)).filter (t.is_kept filter)).take
          (max_neighbors + 1 - found) ∧
      ((t.traverse_right_counted enc node filter max_neighbors l found node_q tried).2 <
          tried + l.length →
        max_neighbors + 1 - found ≤
          ((l.map (t.get_right enc node)).filter (t.is_kept filter)).length) := by
  induction l with
  | nil =>
    intro found node_q tried _
    simp [Traverser.traverse_right_counted]
  | cons base rest ih =>
    intro found node_q tried hfound
    rw [traverse_right_counted_cons]
    cases hk : t.is_kept filter (t.get_right enc node base) with
    | false =>
      simp only [Bool.false_eq_true, if_false, List.map_cons, List.filter_cons, hk,
        List.length_cons]
      obtain ⟨h1, h2, h3, h4⟩ := ih found node_q (tried + 1) hfound
      refine ⟨by omega, by omega, ?_, fun hlt => h4 (by omega)⟩
      have e : (t.traverse_right_counted enc node filter max_neighbors rest found node_q
          (tried + 1)).2 - tried = ((t.traverse_right_counted enc node filter max_neighbors
          rest found node_q (tried + 1)).2 - (tried + 1)) + 1 := by omega
      rw [e, List.take_succ_cons, List.map_cons, List.filter_cons, hk]
      simpa using h3
    | true =>
      simp only [if_true, List.map_cons, List.filter_cons, hk, List.length_cons]
      by_cases hmax : found + 1 > max_neighbors
      · have e : max_neighbors + 1 - found = 1 := by omega
        rw [if_pos hmax, e]
        refine ⟨by simp, by simp, ?_, fun _ => by omega⟩
        simp [hk]
      · rw [if_neg hmax]
        obtain ⟨h1, h2, h3, h4⟩ := ih (found + 1) (node_q ++ [t.get_right enc node base])
          (tried + 1) (by omega)
        refine ⟨by omega, by omega, ?_, fun hlt => ?_⟩
        · have e : (t.traverse_right_counted enc node filter max_neighbors rest (found + 1)
              (node_q ++ [t.get_right enc node base]) (tried + 1)).2 - tried =
              ((t.traverse_right_counted enc node filter max_neighbors rest (found + 1)
              (node_q ++ [t.get_right enc node base]) (tried + 1)).2 - (tried + 1)) + 1 := by
            omega
          have e2 : max_neighbors + 1 - found = (max_neighbors + 1 - (found + 1)) + 1 := by
            omega
          rw [e, e2, List.take_succ_cons, List.map_cons, List.filter_cons, hk,
            List.take_succ_cons]
          simp only [if_true]
          rw [h3]
        · have := h4 (by omega)
          omega

theorem traverse_left_counted_min (enc : TwoBit) (t : Traverser) (node : Kmer)
    (filter : Option (Kmer → Bool)) (max_neighbors : Nat) (l : List Char) :
    ∀ (found : Nat) (node_q : List Kmer) (tried : Nat), found ≤ max_neighbors →
      ∀ j, tried + j <
          (t.traverse_left_counted enc node filter max_neighbors l found node_q tried).2 →
        found + (((l.take j).map (t.get_left enc node)).filter (t.is_kept filter)).length ≤
          max_neighbors := by
  induction l with
  | nil =>
    intro found node_q tried _ j hj
    simp [Traverser.traverse_left_counted] at hj
  | cons base rest ih =>
    intro found node_q tried hfound j hj
    rw [traverse_left_counted_cons] at hj
    cases j with
    | zero => simpa using hfound
    | succ j =>
      rw [List.take_succ_cons, List.map_cons, List.filter_cons]
      cases hk : t.is_kept filter (t.get_left enc node base) with
      | false =>
        rw [hk] at hj
        simp only [Bool.false_eq_true, if_false] at hj ⊢
        exact ih found node_q (tried + 1) hfound j (by omega)
      | true =>
        rw [hk] at hj
        simp only [if_true] at hj ⊢
        by_cases hmax : found + 1 > max_neighbors
        · rw [if_pos hmax] at hj
          simp only at hj
          omega
        · rw [if_neg hmax] at hj
          have := ih (found + 1) (node_q ++ [t.get_left enc node base]) (tried + 1)
            (by omega) j (by omega)
          rw [List.length_cons]
          omega

theorem traverse_right_counted_min (enc : TwoBit) (t : Traverser) (node : Kmer)
    (filter : Option (Kmer → Bool)) (max_neighbors : Nat) (l : List Char) :
    ∀ (found : Nat) (node_q : List Kmer) (tried : Nat), found ≤ max_neighbors →
      ∀ j, tried + j <
          (t.traverse_right_counted enc node filter max_neighbors l found node_q tried).2 →
        found + (((l.take j).map (t.get_right enc node)).filter (t.is_kept filter)).length ≤
          max_neighbors := by
  induction l with
  | nil =>
    intro found node_q tried _ j hj
    simp [Traverser.traverse_right_counted] at hj
  | cons base rest ih =>
    intro found node_q tried hfound j hj
    rw [traverse_right_counted_cons] at hj
    cases j with
    | zero => simpa using hfound
    | succ j =>
      rw [List.take_succ_cons, List.map_cons, List.filter_cons]
      cases hk : t.is_kept filter (t.get_right enc node base) with
      | false =>
        rw [hk] at hj
        simp only [Bool.false_eq_true, if_false] at hj ⊢
        exact ih found node_q (tried + 1) hfound j (by omega)
      | true =>
        rw [hk] at hj
        simp only [if_true] at hj ⊢
        by_cases hmax : found + 1 > max_neighbors
        · rw [if_pos hmax] at hj
          simp only at hj
          omega
        · rw [if_neg hmax] at hj
          have := ih (found + 1) (node_q ++ [t.get_right enc node base]) (tried + 1)
            (by omega) j (by omega)
          rw [List.length_cons]
          omega

/-- C18, amended (cost of enumeration): the loop with the counter computes what `traverse_left`
computes; `traverse_left` tries at most 4 symbols, in alphabet order; the kept extensions among
the symbols tried are the first `max_neighbors + 1` kept extensions of the node; fewer than 4
symbols are tried only when `max_neighbors + 1` extensions have been kept; and it returns right
after the `(max_neighbors + 1)`-th kept extension: among any smaller number of leading symbols
at most `max_neighbors` are kept.  The same holds for `traverse_right`. -/
theorem traverse_trials (enc : TwoBit) (t : Traverser) (node : Kmer) (node_q : List Kmer)
    (filter : Option (Kmer → Bool)) (max_neighbors : Nat) :
    ((t.traverse_left_counted enc node filter max_neighbors DNA_SIMPLE 0 node_q 0).1 =
          t.traverse_left enc node node_q filter max_neighbors ∧
        t.traverse_left_trials enc node node_q filter max_neighbors ≤ 4 ∧
        ((DNA_SIMPLE.take (t.traverse_left_trials enc node node_q filter max_neighbors)).map
            (t.get_left enc node)).filter (t.is_kept filter) =
          (t.kept_left enc node filter).take (max_neighbors + 1) ∧
        (t.traverse_left_trials enc node node_q filter max_neighbors < 4 →
          (t.traverse_left enc node node_q filter max_neighbors).1 = max_neighbors + 1) ∧
        (∀ j, j < t.traverse_left_trials enc node node_q filter max_neighbors →
          (((DNA_SIMPLE.take j).map (t.get_left enc node)).filter (t.is_kept filter)).length ≤
            max_neighbors)) ∧
      ((t.traverse_right_counted enc node filter max_neighbors DNA_SIMPLE 0 node_q 0).1 =
          t.traverse_right enc node node_q filter max_neighbors ∧
        t.traverse_right_trials enc node node_q filter max_neighbors ≤ 4 ∧
        ((DNA_SIMPLE.take (t.traverse_right_trials enc node node_q filter max_neighbors)).map
            (t.get_right enc node)).filter (t.is_kept filter) =
          (t.kept_right enc node filter).take (max_neighbors + 1) ∧
        (t.traverse_right_trials enc node node_q filter max_neighbors < 4 →
          (t.traverse_right enc node node_q filter max_neighbors).1 = max_neighbors + 1) ∧
        (∀ j, j < t.traverse_right_trials enc node node_q filter max_neighbors →
          (((DNA_SIMPLE.take j).map (t.get_right enc node)).filter (t.is_kept filter)).length ≤
            max_neighbors)) := by
  constructor
  · obtain ⟨-, h2, h3, h4⟩ := traverse_left_counted_snd enc t node filter max_neighbors
      DNA_SIMPLE 0 node_q 0 (Nat.zero_le _)
    refine ⟨traverse_left_counted_fst enc t node filter max_neighbors DNA_SIMPLE 0 node_q 0,
      ?_, ?_, ?_, ?_⟩
    · simpa [Traverser.traverse_left_trials, DNA_SIMPLE] using h2
    · simpa [Traverser.traverse_left_trials, Traverser.kept_left] using h3
    · intro hlt
      have hlen := h4 (by simpa [Traverser.traverse_left_trials, DNA_SIMPLE] using hlt)
      rw [Traverser.traverse_left, traverse_left_loop_eq enc t node filter max_neighbors
        DNA_SIMPLE 0 node_q (Nat.zero_le _)]
      simp only [Nat.zero_add, Nat.sub_zero] at hlen ⊢
      exact Nat.min_eq_right hlen
    · intro j hj
      have := traverse_left_counted_min enc t node filter max_neighbors DNA_SIMPLE 0 node_q 0
        (Nat.zero_le _) j (by simpa [Traverser.traverse_left_trials] using hj)
      simpa using this
  · obtain ⟨-, h2, h3, h4⟩ := traverse_right_counted_snd enc t node filter max_neighbors
      DNA_SIMPLE 0 node_q 0 (Nat.zero_le _)
    refine ⟨traverse_right_counted_fst enc t node filter max_neighbors DNA_SIMPLE 0 node_q 0,
      ?_, ?_, ?_, ?_⟩
    · simpa [Traverser.traverse_right_trials, DNA_SIMPLE] using h2
    · simpa [Traverser.traverse_right_trials, Traverser.kept_right] using h3
    · intro hlt
      have hlen := h4 (by simpa [Traverser.traverse_right_trials, DNA_SIMPLE] using hlt)
      rw [Traverser.traverse_right, traverse_right_loop_eq enc t node filter max_neighbors
        DNA_SIMPLE 0 node_q (Nat.zero_le _)]
      simp only [Nat.zero_add, Nat.sub_zero] at hlen ⊢
      exact Nat.min_eq_right hlen
    · intro j hj
      have := traverse_right_counted_min enc t node filter max_neighbors DNA_SIMPLE 0 node_q 0
        (Nat.zero_le _) j (by simpa [Traverser.traverse_right_trials] using hj)
      simpa using this

/-- C18 as stated fails: over the store that holds TAC alone, `traverse_left` from ACG with
`max_neighbors = 0` tries A, C and G in vain before it keeps T, so it computes an extension and
queries the store for 4 symbols, more than `max_neighbors + 1 = 1`. -/
theorem traverse_trials_exceed_bound :
    (Traverser.new (store3 [18])).traverse_left_trials khmer_code kmer_ACG [] none 0 = 4 ∧
      ((Traverser.new (store3 [18])).traverse_left khmer_code kmer_ACG [] none 0).1 = 1 ∧
      ¬ ((Traverser.new (store3 [18])).traverse_left_trials khmer_code kmer_ACG [] none 0 ≤
        0 + 1) := by
  decide

/-- An instance of the amended C18 with a filter and an early return: over the store that holds
all four left neighbours of ACG, with a filter that keeps every k-mer but AAC and
`max_neighbors = 0`, `traverse_left` tries A, which the filter refuses, then keeps CAC and
returns 1 after two symbols; with no symbol tried, and with A tried, nothing is kept yet. -/
theorem traverse_trials_witness :
    (Traverser.new (store3 [2, 34, 50, 18])).traverse_left_trials khmer_code kmer_ACG []
        (some (fun n => decide (n.kmer_u ≠ 2))) 0 = 2 ∧
      ((Traverser.new (store3 [2, 34, 50, 18])).traverse_left khmer_code kmer_ACG []
        (some (fun n => decide (n.kmer_u ≠ 2))) 0).1 = 0 + 1 ∧
      (((DNA_SIMPLE.take 1).map
          ((Traverser.new (store3 [2, 34, 50, 18])).get_left khmer_code kmer_ACG)).filter
          ((Traverser.new (store3 [2, 34, 50, 18])).is_kept
            (some (fun n => decide (n.kmer_u ≠ 2))))).length ≤ 0 :=
  ⟨by decide,
    (traverse_trials khmer_code (Traverser.new (store3 [2, 34, 50, 18])) kmer_ACG []
      (some (fun n => decide (n.kmer_u ≠ 2))) 0).1.2.2.2.1 (by decide),
    (traverse_trials khmer_code (Traverser.new (store3 [2, 34, 50, 18])) kmer_ACG []
      (some (fun n => decide (n.kmer_u ≠ 2))) 0).1.2.2.2.2 1 (by decide)⟩

/-! ## Instances of the statements on cursors, joins and degrees -/

/-- An instance of C12 with k = 4 on the contigs ACGTAC and GTACGG. -/
theorem join_contigs_formula_witness :
    ((AssemblerTraverser.new (empty_store 4) kmer_ACG []).join_contigs RIGHT
          (String.toList "ACGTAC") (String.toList "GTACGG") =
        some (String.toList "ACGTACGG", String.toList "ACGTAC", String.toList "GTACGG") ∧
      (String.toList "ACGTACGG").length = 6 + 6 - 4) ∧
      (AssemblerTraverser.new (empty_store 4) kmer_ACG []).join_contigs LEFT
          (String.toList "ACGTAC") (String.toList "GTACGG") =
        some (String.toList "GTACGGAC", String.toList "ACGTAC", String.toList "GTACGG") :=
  ⟨(join_contigs_formula (AssemblerTraverser.new (empty_store 4) kmer_ACG [])
      (String.toList "ACGTAC") (String.toList "GTACGG")).1 (by decide),
    (join_contigs_formula (AssemblerTraverser.new (empty_store 4) kmer_ACG [])
      (String.toList "ACGTAC") (String.toList "GTACGG")).2 (by decide)⟩

/-- The instance of C13 given with the claim: k = 4, x = ACGTAC and y = GTACGG, which overlap in
GTAC, give ACGTACGG for the leftward join of (y, x) and for the rightward join of (x, y). -/
theorem join_contigs_swap_witness :
    ((AssemblerTraverser.new (empty_store 4) kmer_ACG []).join_contigs LEFT
          (String.toList "GTACGG") (String.toList "ACGTAC")).map (fun r => r.1) =
        some (String.toList "ACGTACGG") ∧
      ((AssemblerTraverser.new (empty_store 4) kmer_ACG []).join_contigs RIGHT
          (String.toList "ACGTAC") (String.toList "GTACGG")).map (fun r => r.1) =
        some (String.toList "ACGTACGG") ∧
      String.toList "ACGTACGG" = String.toList "AC" ++ String.toList "GTACGG" :=
  ⟨(join_contigs_swap (AssemblerTraverser.new (empty_store 4) kmer_ACG [])
      (String.toList "ACGTAC") (String.toList "GTACGG") (by decide)).1,
    (join_contigs_swap (AssemblerTraverser.new (empty_store 4) kmer_ACG [])
      (String.toList "ACGTAC") (String.toList "GTACGG") (by decide)).2.1,
    (join_contigs_swap (AssemblerTraverser.new (empty_store 4) kmer_ACG [])
      (String.toList "ACGTAC") (String.toList "GTACGG") (by decide)).2.2 (by decide)⟩

/-- An instance of C14: a cursor at ACG whose chain rejects the unique hash 27 refuses to move to
CGA, whatever the store, and moves to CGC. -/
theorem set_cursor_spec_witness :
    ((AssemblerTraverser.new (store3 [27]) kmer_ACG [reject_hash 27]).set_cursor
          (build_kmer 44 27)).1 = false ∧
      ((AssemblerTraverser.new (store3 [27]) kmer_ACG [reject_hash 27]).set_cursor
          (build_kmer 44 27)).2 = AssemblerTraverser.new (store3 [27]) kmer_ACG [reject_hash 27] ∧
      ((AssemblerTraverser.new (store3 [27]) kmer_ACG [reject_hash 27]).set_cursor
          (build_kmer 46 59)).1 = true ∧
      ((AssemblerTraverser.new (store3 [27]) kmer_ACG [reject_hash 27]).set_cursor
          (build_kmer 46 59)).2 =
        AssemblerTraverser.new (store3 [27]) (build_kmer 46 59) [reject_hash 27] :=
  ⟨by decide,
    (set_cursor_spec (AssemblerTraverser.new (store3 [27]) kmer_ACG [reject_hash 27])
      (build_kmer 44 27)).2.2.1 (by decide),
    by decide,
    (set_cursor_spec (AssemblerTraverser.new (store3 [27]) kmer_ACG [reject_hash 27])
      (build_kmer 46 59)).2.1 (by decide)⟩

/-- An instance of C15: at ACG over the store that holds CGC alone the single candidate is C;
with a filter that rejects CGC pushed the step is refused, the pop returns that filter and the
object of before the push, and on it the step to CGC is taken. -/
theorem filter_stacking_witness :
    ((AssemblerTraverser.new (store3 [46]) kmer_ACG []).push_filter (reject_hash 46)).next_symbol
          RIGHT khmer_code =
        (STOP, (AssemblerTraverser.new (store3 [46]) kmer_ACG []).push_filter (reject_hash 46)) ∧
      (((AssemblerTraverser.new (store3 [46]) kmer_ACG []).push_filter
          (reject_hash 46)).next_symbol RIGHT khmer_code).2.cursor = kmer_ACG ∧
      (((AssemblerTraverser.new (store3 [46]) kmer_ACG []).push_filter
          (reject_hash 46)).next_symbol RIGHT khmer_code).2.pop_filter =
        some (reject_hash 46, AssemblerTraverser.new (store3 [46]) kmer_ACG []) ∧
      (AssemblerTraverser.new (store3 [46]) kmer_ACG []).next_symbol RIGHT khmer_code =
        ('C', AssemblerTraverser.new (store3 [46]) (Kmer.mk 46 59 46) []) :=
  filter_stacking RIGHT khmer_code (AssemblerTraverser.new (store3 [46]) kmer_ACG []) 'C'
    (reject_hash 46) (by decide) (by decide) (by decide) (by decide)

/-- An instance of C16: popping the chain that holds one filter, and popping after a push. -/
theorem push_pop_stack_witness :
    ((AssemblerTraverser.new (store3 []) kmer_ACG [reject_hash 27]).push_filter
          (reject_hash 27)).pop_filter =
        some (reject_hash 27, AssemblerTraverser.new (store3 []) kmer_ACG [reject_hash 27]) ∧
      (AssemblerTraverser.new (store3 []) kmer_ACG [reject_hash 27]).pop_filter =
        some (reject_hash 27, AssemblerTraverser.new (store3 []) kmer_ACG []) :=
  ⟨(push_pop_stack (AssemblerTraverser.new (store3 []) kmer_ACG [reject_hash 27])
      (reject_hash 27)).2.2.2.1,
    (push_pop_stack (AssemblerTraverser.new (store3 []) kmer_ACG [reject_hash 27])
      (reject_hash 27)).2.2.1 [] rfl⟩

/-- An instance of C17: at a dead end, three further calls return STOP three times. -/
theorem stop_is_terminal_witness :
    (AssemblerTraverser.new (store3 []) kmer_ACG []).calls RIGHT khmer_code 3 =
      ([STOP, STOP, STOP], AssemblerTraverser.new (store3 []) kmer_ACG []) :=
  stop_is_terminal RIGHT khmer_code (AssemblerTraverser.new (store3 []) kmer_ACG [])
    (by decide) 3

/-- An instance of C19: ACG extended by C on the left, and its strand swap CGT extended by G on
the right. -/
theorem strand_mirror_witness :
    ((Traverser.new (store3 [])).get_left khmer_code kmer_ACG 'C').kmer_f =
        ((Traverser.new (store3 [])).get_right khmer_code (strand_swap kmer_ACG) 'G').kmer_r ∧
      ((Traverser.new (store3 [])).get_left khmer_code kmer_ACG 'C').kmer_r =
        ((Traverser.new (store3 [])).get_right khmer_code (strand_swap kmer_ACG) 'G').kmer_f :=
  strand_mirror khmer_code (by decide) (Traverser.new (store3 [])) kmer_ACG 'C' (by decide)

/-- An instance of C20: at ACG over the store that holds CGC alone, without filters, the degree
to the right is 1 and the step is taken. -/
theorem cursor_degree_predicts_witness :
    (AssemblerTraverser.new (store3 [46]) kmer_ACG []).cursor_degree RIGHT khmer_code = 1 ∧
      ((AssemblerTraverser.new (store3 [46]) kmer_ACG []).next_symbol RIGHT khmer_code).1 ≠
        STOP :=
  ⟨by decide,
    (cursor_degree_predicts RIGHT khmer_code (AssemblerTraverser.new (store3 [46]) kmer_ACG [])
      rfl).1.2 (by decide)⟩

/-! ## NonLoopingAT with its chain as stored: popping the visited filter -/

theorem stored_new (ht : Hashtable) (start_kmer : Kmer) (filters : List KmerFilter) :
    (NonLoopingAT.new ht start_kmer filters).stored = NonLoopingObject.new ht start_kmer filters :=
  rfl

theorem map_fixed_eval (fs : List KmerFilter) (visited : SeenSet) :
    (fs.map SetFilter.fixed).map (fun f => f visited) = fs := by
  induction fs with
  | nil => rfl
  | cons f fs ih => simp only [List.map_cons, ih]; rfl

theorem stored_base (n : NonLoopingAT) (visited : SeenSet) :
    n.stored.base visited = n.chained visited := by
  simp only [NonLoopingObject.base, NonLoopingAT.stored, NonLoopingAT.chained, List.map_append,
    map_fixed_eval, List.map_cons, List.map_nil]

theorem stored_next_symbol (direction : Bool) (enc : TwoBit) (n : NonLoopingAT)
    (visited : SeenSet) :
    n.stored.next_symbol direction enc visited =
      ((n.next_symbol direction enc visited).1, (n.next_symbol direction enc visited).2.1.stored,
        (n.next_symbol direction enc visited).2.2) := by
  simp only [NonLoopingObject.next_symbol, NonLoopingAT.next_symbol, stored_base]
  rfl

/-- A call of `next_symbol` leaves the chain as it is. -/
theorem object_next_symbol_filters (direction : Bool) (enc : TwoBit) (o : NonLoopingObject)
    (visited : SeenSet) : (o.next_symbol direction enc visited).2.1.filters = o.filters :=
  rfl

/-- A push leaves the visited filter on the chain. -/
theorem push_filter_holds_visited_filter (o : NonLoopingObject) (f : SetFilter)
    (hchain : get_visited_filter ∈ o.filters) :
    get_visited_filter ∈ (o.push_filter f).filters :=
  List.mem_append_left _ hchain

end khmer
